import Mathlib

set_option autoImplicit false

/-!
A shallow embedding of `vmsim.py` (a virtual-memory page-replacement
simulator) together with proofs about its page table, its three eviction
policies (LRU, OPT/Belady, second chance) and its replay loop.

Conventions used throughout the embedding:
* Python integers are `Nat` (all values in the program are non-negative);
  the binary search keeps `Int` where the Python code genuinely uses `-1`.
* A `Page` object is represented by its page number (`address >> offset`);
  the Python object stores the offset only in order to compute that number.
* Code paths that raise (`ValueError`, `RuntimeError`, `KeyError`,
  `IndexError`) are modelled by `Option`: `none` means the Python run dies
  with an uncaught exception.
-/

/-- The two access kinds of a trace record (`'l'` and `'s'` in vmsim.py).
Any other string makes `PageTableEntry.access` raise; the embedding's trace
type carries only the two valid kinds. -/
inductive AccessType where
  | l
  | s
deriving DecidableEq, Repr

/-- One frame of the table (`PageTableEntry.__init__`).  The `offset` field
of the Python object is dropped: it exists only to turn addresses into page
numbers, and the embedding performs that shift at the call sites instead. -/
structure PageTableEntry where
  page : Option Nat
  dirty : Bool
  most_recent_access : Nat
  num_accesses : Nat
  second_chance : Bool
deriving DecidableEq, Repr

/-- The state of a fresh `PageTableEntry`. -/
def PageTableEntry.init : PageTableEntry :=
  { page := none, dirty := false, most_recent_access := 0,
    num_accesses := 0, second_chance := false }

/-- `PageTableEntry.setPage`: stores the page of `address` (the caller passes
the page number `address >> offset`) and resets the second-chance bit. -/
def PageTableEntry.setPage (e : PageTableEntry) (pn : Nat) : PageTableEntry :=
  { e with page := some pn, second_chance := false }

/-- `PageTableEntry.load`. -/
def PageTableEntry.load (e : PageTableEntry) (access_index : Nat) : PageTableEntry :=
  { e with most_recent_access := access_index, num_accesses := e.num_accesses + 1 }

/-- `PageTableEntry.store`. -/
def PageTableEntry.store (e : PageTableEntry) (access_index : Nat) : PageTableEntry :=
  { e with most_recent_access := access_index, dirty := true }

/-- `PageTableEntry.access` (the `ValueError` branch is unrepresentable
because `AccessType` has only the two valid constructors). -/
def PageTableEntry.access (e : PageTableEntry) (t : AccessType) (i : Nat) : PageTableEntry :=
  match t with
  | .l => e.load i
  | .s => e.store i

/-- `PageTableEntry.clear`: note that, exactly as in the source, the
`second_chance` bit is NOT reset here. -/
def PageTableEntry.clear (e : PageTableEntry) : PageTableEntry :=
  { e with page := none, dirty := false, most_recent_access := 0, num_accesses := 0 }

/-- The whole mutable state of one `PageTable` run.  `round_robin_index` is
only meaningful for the second-chance table; Python initialises it to `-1`
and we store it shifted into `Nat` as `size - 1`, which is the same starting
point for the circular advance `(i + 1) % size` whenever `size ≥ 1`. -/
structure SimState where
  table : List PageTableEntry
  page_faults : Nat
  writes_to_disk : Nat
  round_robin_index : Nat
deriving DecidableEq, Repr

/-- The three recognised eviction algorithms. -/
inductive EvictionType where
  | opt
  | lru
  | second
deriving DecidableEq, Repr

/-! ### Generic list helpers mirroring the Python iteration patterns -/

/-- Pair every element of a list with its position, starting at `i`
(the Python loops identify an entry by object identity; position in the
table is the faithful stand-in). -/
def enumFromL {α : Type _} (i : Nat) : List α → List (Nat × α)
  | [] => []
  | a :: l => (i, a) :: enumFromL (i + 1) l

/-- First index satisfying a predicate (a `for` loop with an early
`return`), `none` when the loop falls through. -/
def findIdxO {α : Type _} (p : α → Bool) : List α → Option Nat
  | [] => none
  | a :: l => if p a then some 0 else (findIdxO p l).map (· + 1)

/-- Evaluate a fallible function on every element (a Python list
comprehension whose body may raise): `none` as soon as any element fails. -/
def listMapOpt {α β : Type _} (f : α → Option β) : List α → Option (List β)
  | [] => some []
  | a :: l =>
    match f a, listMapOpt f l with
    | some b, some bs => some (b :: bs)
    | _, _ => none

/-- The `least_recently_used`-style fold: start from `b`, replace the
current best only on a strictly smaller key, so the first minimum wins. -/
def firstMinPair {α : Type _} (key : α → Nat) (b : α) : List α → α
  | [] => b
  | x :: xs => if key x < key b then firstMinPair key x xs else firstMinPair key b xs

/-- Python's `max` on a nonempty list of numbers. -/
def listMax : List Nat → Option Nat
  | [] => none
  | a :: l => some (l.foldl Nat.max a)

/-- Python's `list.index`: position of the first occurrence of `m`
(callers only use it when `m` is present). -/
def listIdxOf (m : Nat) : List Nat → Nat
  | [] => 0
  | a :: l => if a = m then 0 else listIdxOf m l + 1

/-! ### PageTable operations -/

namespace PageTable

/-- `PageTable.tableIsFull`. -/
def tableIsFull (table : List PageTableEntry) : Bool :=
  table.all (fun e => e.page.isSome)

/-- `PageTable.getTableEntryByAddress`, returning the position of the first
entry holding the page of the queried address (`pn = address >> offset`),
`None` when the address is absent. -/
def getTableEntryByAddress (table : List PageTableEntry) (pn : Nat) : Option Nat :=
  findIdxO (fun e => e.page == some pn) table

/-- `PageTable.clearEntry` applied to the entry at position `i`: count a
writeback if it is dirty, then clear it. -/
def clearEntry (st : SimState) (i : Nat) : SimState :=
  let e := st.table.getD i PageTableEntry.init
  { st with
    writes_to_disk := st.writes_to_disk + (if e.dirty then 1 else 0),
    table := st.table.set i e.clear }

/-- `PageTable.entryIsNotUsedAgain`: the last recorded occurrence of the
entry's page is strictly before the current index.  `none` models the
`KeyError`/`IndexError` on a missing page or an empty occurrence list. -/
def entryIsNotUsedAgain (ti : Nat → List Nat) (e : PageTableEntry) (index : Nat) :
    Option Bool :=
  match e.page with
  | none => none
  | some pn =>
    match (ti pn).getLast? with
    | none => none
    | some last => some (decide (last < index))

/-- The loop of `PageTable.findFirstElementGreaterThan` (a classic binary
search over `array[l..r]`, with `ans` the best hit so far and `-1` standing
for "nothing found"). -/
def ffegtAux (array : List Nat) (index : Nat) (l r ans : Int) : Int :=
  if hlr : l ≤ r then
    let mid := l + (r - l) / 2
    if array.getD mid.toNat 0 ≤ index then
      ffegtAux array index (mid + 1) r ans
    else
      ffegtAux array index l (mid - 1) mid
  else ans
termination_by (r + 1 - l).toNat
decreasing_by
  all_goals
    have h2 : (0:Int) ≤ (r - l) / 2 := Int.ediv_nonneg (by omega) (by decide)
    have h3 : (r - l) / 2 ≤ r - l := Int.ediv_le_self _ (by omega)
    omega

/-- `PageTable.findFirstElementGreaterThan`. -/
def findFirstElementGreaterThan (array : List Nat) (index : Nat) : Int :=
  ffegtAux array index 0 ((array.length : Int) - 1) (-1)

/-- `PageTable.entryNextUsedAt`: next index at which the entry's page is
accessed; `none` models the `ValueError` raised when no such index exists
(and the `KeyError` on a page that never occurs). -/
def entryNextUsedAt (ti : Nat → List Nat) (e : PageTableEntry) (index : Nat) :
    Option Nat :=
  match e.page with
  | none => none
  | some pn =>
    let page_used_at := ti pn
    let f := findFirstElementGreaterThan page_used_at index
    if f = -1 then none else some (page_used_at.getD f.toNat 0)

/-- `OptimalTable.evict`. -/
def optEvict (ti : Nat → List Nat) (st : SimState) (index : Nat) : Option SimState :=
  match listMapOpt (fun e => entryIsNotUsedAgain ti e index) st.table with
  | none => none
  | some flags =>
    let never_used_again :=
      ((enumFromL 0 st.table).zip flags).filter (fun q => q.2) |>.map (fun q => q.1)
    match never_used_again with
    | p :: rest =>
      some (clearEntry st (firstMinPair (fun q => q.2.most_recent_access) p rest).1)
    | [] =>
      match listMapOpt (fun e => entryNextUsedAt ti e index) st.table with
      | none => none
      | some next_used =>
        match listMax next_used with
        | none => none
        | some m => some (clearEntry st (listIdxOf m next_used))

/-- `LRUTable.evict` (`none` models the `IndexError` on an empty table). -/
def lruEvict (st : SimState) : Option SimState :=
  match enumFromL 0 st.table with
  | [] => none
  | p :: rest =>
    some (clearEntry st (firstMinPair (fun q => q.2.most_recent_access) p rest).1)

/-- The `while` loop of `SecondChanceTable.evict`, with explicit fuel; the
caller passes fuel `size + 1`, which `scEvictAux_isSome_of_fuel` shows is
always enough for the loop to finish, so the fueled function and the Python
loop agree.  Returns the state after the eviction together with the new
cursor.  `none` is fuel exhaustion or the out-of-range access the Python
code dies with when `size = 0`. -/
def scEvictAux (fuel : Nat) (st : SimState) (rr : Nat) : Option (SimState × Nat) :=
  match fuel with
  | 0 => none
  | f + 1 =>
    let rr2 := (rr + 1) % st.table.length
    match st.table.get? rr2 with
    | none => none
    | some e =>
      if e.second_chance then
        scEvictAux f { st with table := st.table.set rr2 { e with second_chance := false } } rr2
      else
        some (clearEntry st rr2, rr2)

/-- `SecondChanceTable.evict`. -/
def scEvict (st : SimState) : Option SimState :=
  match scEvictAux (st.table.length + 1) st st.round_robin_index with
  | none => none
  | some (st', rr') => some { st' with round_robin_index := rr' }

/-- Dispatch to the policy's `evict` (the subclass virtual call). -/
def evict (p : EvictionType) (ti : Nat → List Nat) (st : SimState) (index : Nat) :
    Option SimState :=
  match p with
  | .opt => optEvict ti st index
  | .lru => lruEvict st
  | .second => scEvict st

/-- `PageTable.load`: put the page into the first free entry and return the
updated state and that entry's position; `none` models the `RuntimeError`
raised when no entry is free. -/
def load (st : SimState) (pn : Nat) : Option (SimState × Nat) :=
  match findIdxO (fun e => e.page == none) st.table with
  | none => none
  | some i =>
    let e := st.table.getD i PageTableEntry.init
    some ({ st with table := st.table.set i (e.setPage pn) }, i)

/-- `PageTable.evictAndLoad`. -/
def evictAndLoad (p : EvictionType) (ti : Nat → List Nat) (st : SimState)
    (pn : Nat) (index : Nat) : Option (SimState × Nat) :=
  match (if tableIsFull st.table then evict p ti st index else some st) with
  | none => none
  | some st1 => load st1 pn

/-- `PageTable.query` for one access of page number `pn = address >> offset`. -/
def query (p : EvictionType) (ti : Nat → List Nat) (st : SimState)
    (t : AccessType) (pn : Nat) (index : Nat) : Option SimState :=
  match getTableEntryByAddress st.table pn with
  | some i =>
    let e := st.table.getD i PageTableEntry.init
    some { st with table := st.table.set i { e.access t index with second_chance := true } }
  | none =>
    match evictAndLoad p ti st pn index with
    | none => none
    | some (st1, i) =>
      let e := st1.table.getD i PageTableEntry.init
      some { st1 with
             table := st1.table.set i (e.access t index),
             page_faults := st1.page_faults + 1 }

end PageTable

/-! ### The simulator -/

/-- A trace record: access kind and raw address. -/
def TraceRec : Type := AccessType × Nat

/-- The `trace_indices` map of `VirtualMemorySimulator.__init__`: for each
page number, the ascending list of trace positions whose address lies in
that page.  (Pages that never occur map to `[]`, which is exactly the
`KeyError` territory the `Option`-valued lookups above account for.) -/
def traceIndices (offset : Nat) (trace : List TraceRec) (pn : Nat) : List Nat :=
  (List.range trace.length).filter
    (fun i => (trace.getD i (AccessType.l, 0)).2 >>> offset == pn)

/-- The fresh state built by `PageTable.__init__` for `n` frames. -/
def initState (n : Nat) : SimState :=
  { table := List.replicate n PageTableEntry.init,
    page_faults := 0, writes_to_disk := 0,
    round_robin_index := n - 1 }

/-- The replay loop of `VirtualMemorySimulator.run`, from state `st` with
the next record carrying index `index`. -/
def replay (p : EvictionType) (offset : Nat) (ti : Nat → List Nat)
    (st : SimState) (trace : List TraceRec) (index : Nat) : Option SimState :=
  match trace with
  | [] => some st
  | (t, a) :: rest =>
    match PageTable.query p ti st t (a >>> offset) index with
    | none => none
    | some st' => replay p offset ti st' rest (index + 1)

/-- A whole simulator run: build `trace_indices`, build the table, replay.
(For LRU and second chance the Python code leaves `trace_indices` empty;
since those policies never read it, passing the full map is equivalent.) -/
def run (p : EvictionType) (offset : Nat) (num_frames : Nat)
    (trace : List TraceRec) : Option SimState :=
  replay p offset (traceIndices offset trace) (initState num_frames) trace 0

/-- Spec-side vocabulary (§4.3 of the spec): the last recorded future-access
position of the page resident in `e` (the `0` placeholders are irrelevant
under the occupancy hypotheses of the theorems that use this). -/
def lastRecordedUse (ti : Nat → List Nat) (e : PageTableEntry) : Nat :=
  (ti (e.page.getD 0)).getLastD 0

/-- Spec-side vocabulary (§4.3 of the spec): the next access position of the
page resident in `e` after `index` — the first (hence, the list being
ascending, the smallest) recorded occurrence strictly greater than `index`. -/
def nextUseSpec (ti : Nat → List Nat) (e : PageTableEntry) (index : Nat) : Nat :=
  ((ti (e.page.getD 0)).find? (fun x => decide (index < x))).getD 0

/-! ### Concrete fixtures used to exercise the theorems on closed inputs -/

/-- A sample occurrence map: page 1 at positions 0 and 3, page 2 at 1. -/
def tiC1 : Nat → List Nat :=
  fun pn => if pn = 1 then [0, 3] else if pn = 2 then [1] else []

/-- A full two-frame table holding pages 1 and 2. -/
def stC1 : SimState :=
  { table := [{ page := some 1, dirty := false, most_recent_access := 0,
                num_accesses := 0, second_chance := false },
              { page := some 2, dirty := false, most_recent_access := 1,
                num_accesses := 0, second_chance := false }],
    page_faults := 0, writes_to_disk := 0, round_robin_index := 1 }

/-- A full three-frame table with second-chance flags true, false, true. -/
def stC2 : SimState :=
  { table := [{ page := some 1, dirty := false, most_recent_access := 0,
                num_accesses := 0, second_chance := true },
              { page := some 2, dirty := false, most_recent_access := 0,
                num_accesses := 0, second_chance := false },
              { page := some 3, dirty := false, most_recent_access := 0,
                num_accesses := 0, second_chance := true }],
    page_faults := 0, writes_to_disk := 0, round_robin_index := 2 }

/-- A full two-frame table whose second frame is the least recently used. -/
def stC3 : SimState :=
  { table := [{ page := some 1, dirty := false, most_recent_access := 5,
                num_accesses := 0, second_chance := false },
              { page := some 2, dirty := false, most_recent_access := 3,
                num_accesses := 0, second_chance := false }],
    page_faults := 0, writes_to_disk := 0, round_robin_index := 1 }

/-- The state reached by replaying the one-record trace `l 0x1000` on two
frames under LRU. -/
def stC4 : SimState :=
  { table := [{ page := some 1, dirty := false, most_recent_access := 0,
                num_accesses := 1, second_chance := false },
              { page := none, dirty := false, most_recent_access := 0,
                num_accesses := 0, second_chance := false }],
    page_faults := 1, writes_to_disk := 0, round_robin_index := 1 }

/-- The state reached by one store query of page 9 on one fresh frame. -/
def stC5 : SimState :=
  { table := [{ page := some 9, dirty := true, most_recent_access := 0,
                num_accesses := 0, second_chance := false }],
    page_faults := 1, writes_to_disk := 0, round_robin_index := 0 }

/-- A sample occurrence map for C8: page 5 occurs at positions 0, 2 and 9. -/
def tiC8 : Nat → List Nat :=
  fun pn => if pn = 5 then [0, 2, 9] else []

/-- A frame holding page 5. -/
def eC8 : PageTableEntry :=
  { page := some 5, dirty := false, most_recent_access := 0,
    num_accesses := 0, second_chance := false }

/-- A full one-frame table with a dirty page. -/
def stC9 : SimState :=
  { table := [{ page := some 4, dirty := true, most_recent_access := 0,
                num_accesses := 0, second_chance := false }],
    page_faults := 0, writes_to_disk := 0, round_robin_index := 0 }

/-- A full two-frame table with both second-chance flags set. -/
def stC10 : SimState :=
  { table := [{ page := some 1, dirty := false, most_recent_access := 0,
                num_accesses := 0, second_chance := true },
              { page := some 2, dirty := true, most_recent_access := 0,
                num_accesses := 0, second_chance := true }],
    page_faults := 0, writes_to_disk := 0, round_robin_index := 1 }

open PageTable

/-! ### Lemmas about the generic list helpers -/

theorem enumFromL_length {α : Type _} (i : Nat) (l : List α) :
    (enumFromL i l).length = l.length := by
  induction l generalizing i with
  | nil => rfl
  | cons a l ih => simp [enumFromL, ih]

theorem enumFromL_getElem {α : Type _} (i j : Nat) (l : List α)
    (hj : j < (enumFromL i l).length) (hj' : j < l.length) :
    (enumFromL i l)[j] = (i + j, l[j]) := by
  induction l generalizing i j with
  | nil => simp at hj'
  | cons a l ih =>
    cases j with
    | zero => simp [enumFromL]
    | succ j =>
      have hj2 : j < l.length := by
        simp only [List.length_cons] at hj'; omega
      have hlen : j < (enumFromL (i + 1) l).length := by
        rw [enumFromL_length]; exact hj2
      have hcons : (enumFromL i (a :: l))[j + 1] = (enumFromL (i + 1) l)[j] := by
        simp [enumFromL]
      rw [hcons, ih (i + 1) j hlen hj2]
      simp only [List.getElem_cons_succ, Prod.mk.injEq]
      exact ⟨by omega, trivial⟩

theorem findIdxO_eq_some {α : Type _} {p : α → Bool} {l : List α} {i : Nat} (d : α)
    (h : findIdxO p l = some i) :
    i < l.length ∧ p (l.getD i d) = true ∧ ∀ j < i, p (l.getD j d) = false := by
  induction l generalizing i with
  | nil => simp [findIdxO] at h
  | cons a l ih =>
    by_cases hpa : p a
    · simp only [findIdxO, if_pos hpa, Option.some.injEq] at h
      subst h
      exact ⟨by simp, by simpa using hpa, by omega⟩
    · simp only [findIdxO, if_neg hpa, Option.map_eq_some'] at h
      obtain ⟨i', hi', rfl⟩ := h
      obtain ⟨h1, h2, h3⟩ := ih hi'
      refine ⟨by simp; omega, by simpa using h2, ?_⟩
      intro j hj
      cases j with
      | zero => simpa using hpa
      | succ j => simpa using h3 j (by omega)

theorem findIdxO_eq_none {α : Type _} {p : α → Bool} {l : List α} (d : α)
    (h : findIdxO p l = none) : ∀ j < l.length, p (l.getD j d) = false := by
  induction l with
  | nil => intro j hj; simp at hj
  | cons a l ih =>
    by_cases hpa : p a
    · simp [findIdxO, hpa] at h
    · simp only [findIdxO, if_neg hpa, Option.map_eq_none'] at h
      intro j hj
      cases j with
      | zero => simpa using hpa
      | succ j => simpa using ih h j (by simpa using hj)

theorem findIdxO_isSome {α : Type _} {p : α → Bool} {l : List α} {j : Nat} (d : α)
    (hj : j < l.length) (hp : p (l.getD j d) = true) : (findIdxO p l).isSome := by
  cases hf : findIdxO p l with
  | some i => simp
  | none => rw [findIdxO_eq_none d hf j hj] at hp; cases hp

theorem listMapOpt_some {α β : Type _} {f : α → Option β} {l : List α} {ys : List β}
    (d : α) (d' : β) (h : listMapOpt f l = some ys) :
    ys.length = l.length ∧ ∀ j < l.length, f (l.getD j d) = some (ys.getD j d') := by
  induction l generalizing ys with
  | nil =>
    simp only [listMapOpt, Option.some.injEq] at h
    subst h
    exact ⟨rfl, by intro j hj; simp at hj⟩
  | cons a l ih =>
    simp only [listMapOpt] at h
    cases hfa : f a with
    | none => rw [hfa] at h; simp at h
    | some b =>
      rw [hfa] at h
      cases hrest : listMapOpt f l with
      | none => rw [hrest] at h; simp at h
      | some bs =>
        rw [hrest] at h
        simp only [Option.some.injEq] at h
        subst h
        obtain ⟨h1, h2⟩ := ih hrest
        refine ⟨by simp [h1], ?_⟩
        intro j hj
        cases j with
        | zero => simpa using hfa
        | succ j => simpa using h2 j (by simpa using hj)

theorem firstMinPair_le {α : Type _} (key : α → Nat) (b : α) (xs : List α) :
    ∀ a ∈ b :: xs, key (firstMinPair key b xs) ≤ key a := by
  induction xs generalizing b with
  | nil =>
    intro a ha
    simp only [List.mem_singleton] at ha
    subst ha
    simp [firstMinPair]
  | cons x xs ih =>
    intro a ha
    simp only [firstMinPair]
    by_cases h : key x < key b
    · rw [if_pos h]
      rcases List.mem_cons.mp ha with heq | ha'
      · rw [heq]
        exact le_trans (ih x x (by simp)) (le_of_lt h)
      · exact ih x a ha'
    · rw [if_neg h]
      rcases List.mem_cons.mp ha with heq | ha'
      · rw [heq]
        exact ih b b (by simp)
      · rcases List.mem_cons.mp ha' with heq2 | ha''
        · rw [heq2]
          exact le_trans (ih b b (by simp)) (le_of_not_lt h)
        · exact ih b a (by simp [ha''])

theorem firstMinPair_pos {α : Type _} (key : α → Nat) (b : α) (xs : List α) (d : α) :
    ∃ j < (b :: xs).length, (b :: xs).getD j d = firstMinPair key b xs ∧
      ∀ m < j, key (firstMinPair key b xs) < key ((b :: xs).getD m d) := by
  induction xs generalizing b with
  | nil =>
    refine ⟨0, by simp, by simp [firstMinPair], ?_⟩
    intro m hm
    omega
  | cons x xs ih =>
    by_cases h : key x < key b
    · obtain ⟨j, hj, heq, hfst⟩ := ih x
      have hres : firstMinPair key b (x :: xs) = firstMinPair key x xs := by
        simp [firstMinPair, if_pos h]
      refine ⟨j + 1, by simp at hj ⊢; omega, ?_, ?_⟩
      · rw [hres, List.getD_cons_succ]
        exact heq
      · intro m hm
        rw [hres]
        cases m with
        | zero =>
          have hle : key (firstMinPair key x xs) ≤ key x :=
            firstMinPair_le key x xs x (by simp)
          simpa using lt_of_le_of_lt hle h
        | succ m =>
          rw [List.getD_cons_succ]
          exact hfst m (by omega)
    · obtain ⟨j, hj, heq, hfst⟩ := ih b
      have hres : firstMinPair key b (x :: xs) = firstMinPair key b xs := by
        simp [firstMinPair, if_neg h]
      cases j with
      | zero =>
        refine ⟨0, by simp, ?_, ?_⟩
        · rw [hres]
          simpa using heq
        · intro m hm
          omega
      | succ j' =>
        refine ⟨j' + 2, by simp at hj ⊢; omega, ?_, ?_⟩
        · rw [hres]
          simp only [List.getD_cons_succ]
          simpa using heq
        · intro m hm
          rw [hres]
          cases m with
          | zero =>
            have hb : key (firstMinPair key b xs) < key b := by
              simpa using hfst 0 (by omega)
            simpa using hb
          | succ m' =>
            cases m' with
            | zero =>
              have hb : key (firstMinPair key b xs) < key b := by
                simpa using hfst 0 (by omega)
              simp only [List.getD_cons_succ, List.getD_cons_zero]
              exact lt_of_lt_of_le hb (le_of_not_lt h)
            | succ m'' =>
              simp only [List.getD_cons_succ]
              have := hfst (m'' + 1) (by omega)
              simpa using this

theorem foldl_max_base (l : List Nat) (a : Nat) : a ≤ l.foldl Nat.max a := by
  induction l generalizing a with
  | nil => simp
  | cons x l ih => exact le_trans (Nat.le_max_left a x) (ih (Nat.max a x))

theorem foldl_max_le (l : List Nat) (a : Nat) : ∀ x ∈ a :: l, x ≤ l.foldl Nat.max a := by
  induction l generalizing a with
  | nil =>
    intro x hx
    simp only [List.mem_singleton] at hx
    subst hx
    simp
  | cons y l ih =>
    intro x hx
    rcases List.mem_cons.mp hx with rfl | hx'
    · exact le_trans (Nat.le_max_left x y) (foldl_max_base l (Nat.max x y))
    · rcases List.mem_cons.mp hx' with rfl | hx''
      · exact le_trans (Nat.le_max_right a x) (foldl_max_base l (Nat.max a x))
      · exact ih (Nat.max a y) x (by simp [hx''])

theorem foldl_max_mem (l : List Nat) (a : Nat) : l.foldl Nat.max a ∈ a :: l := by
  induction l generalizing a with
  | nil => simp
  | cons x l ih =>
    simp only [List.foldl_cons]
    have hmem := ih (Nat.max a x)
    rcases List.mem_cons.mp hmem with heq | hmem'
    · rw [heq]
      have hc : a.max x = a ∨ a.max x = x := max_choice a x
      rcases hc with hc | hc
      · rw [hc]
        simp
      · rw [hc]
        simp
    · simp [hmem']

theorem listIdxOf_spec {m : Nat} {l : List Nat} (hm : m ∈ l) (d : Nat) :
    listIdxOf m l < l.length ∧ l.getD (listIdxOf m l) d = m ∧
      ∀ j < listIdxOf m l, l.getD j d ≠ m := by
  induction l with
  | nil => simp at hm
  | cons a l ih =>
    by_cases ha : a = m
    · refine ⟨by simp [listIdxOf, ha], by simp [listIdxOf, ha], ?_⟩
      intro j hj
      simp [listIdxOf, ha] at hj
    · have hm' : m ∈ l := by
        rcases List.mem_cons.mp hm with rfl | h'
        · exact absurd rfl ha
        · exact h'
      obtain ⟨h1, h2, h3⟩ := ih hm'
      refine ⟨?_, ?_, ?_⟩
      · simp only [listIdxOf, if_neg ha, List.length_cons]
        omega
      · simp only [listIdxOf, if_neg ha, List.getD_cons_succ]
        exact h2
      intro j hj
      simp only [listIdxOf, if_neg ha] at hj
      cases j with
      | zero => simpa using ha
      | succ j =>
        rw [List.getD_cons_succ]
        exact h3 j (by omega)

theorem listMapOpt_isSome {α β : Type _} {f : α → Option β} {l : List α}
    (h : ∀ a ∈ l, (f a).isSome) : (listMapOpt f l).isSome := by
  induction l with
  | nil => simp [listMapOpt]
  | cons a l ih =>
    have ha := h a (by simp)
    obtain ⟨b, hb⟩ := Option.isSome_iff_exists.mp ha
    have hrest := ih (fun x hx => h x (by simp [hx]))
    obtain ⟨bs, hbs⟩ := Option.isSome_iff_exists.mp hrest
    simp [listMapOpt, hb, hbs]

/-! ### Correctness of the binary search -/

theorem sorted_getD_le {array : List Nat} (hs : List.Sorted (· ≤ ·) array)
    {j m : Nat} (hjm : j ≤ m) (hm : m < array.length) :
    array.getD j 0 ≤ array.getD m 0 := by
  rcases Nat.eq_or_lt_of_le hjm with heq | hlt
  · rw [heq]
  · rw [List.getD_eq_getElem _ _ (lt_of_le_of_lt hjm hm), List.getD_eq_getElem _ _ hm]
    exact List.pairwise_iff_getElem.mp hs j m (lt_of_le_of_lt hjm hm) hm hlt

theorem ffegtAux_spec (array : List Nat) (index : Nat)
    (hsort : List.Sorted (· ≤ ·) array) (l r ans : Int) :
    0 ≤ l →
    (∀ j : Nat, (j : Int) < l → j < array.length → array.getD j 0 ≤ index) →
    r ≤ (array.length : Int) - 1 →
    ((ans = -1 ∧ r = (array.length : Int) - 1) ∨
      (0 ≤ ans ∧ ans < (array.length : Int) ∧ index < array.getD ans.toNat 0 ∧ ans = r + 1)) →
    ((ffegtAux array index l r ans = -1 ∧ ∀ j < array.length, array.getD j 0 ≤ index) ∨
      (∃ k : Nat, k < array.length ∧ ffegtAux array index l r ans = (k : Int) ∧
        index < array.getD k 0 ∧ ∀ j < k, array.getD j 0 ≤ index)) := by
  induction l, r, ans using ffegtAux.induct array index with
  | case1 l r ans hlr mid hle ih =>
    intro hl0 hinv2 hr hinv4
    have h2 : (0:Int) ≤ (r - l) / 2 := Int.ediv_nonneg (by omega) (by decide)
    have h3 : (r - l) / 2 ≤ r - l := Int.ediv_le_self _ (by omega)
    rw [ffegtAux.eq_def, dif_pos hlr]
    simp only at hle ⊢
    rw [if_pos hle]
    apply ih
    · omega
    · intro j hj hjlen
      by_cases hjl : (j : Int) < l
      · exact hinv2 j hjl hjlen
      · have hjm : j ≤ (l + (r - l) / 2).toNat := by omega
        have hmlen : (l + (r - l) / 2).toNat < array.length := by omega
        exact le_trans (sorted_getD_le hsort hjm hmlen) hle
    · exact hr
    · rcases hinv4 with ⟨h5, h6⟩ | ⟨h5, h6, h7, h8⟩
      · exact Or.inl ⟨h5, h6⟩
      · exact Or.inr ⟨h5, h6, h7, h8⟩
  | case2 l r ans hlr mid hgt ih =>
    intro hl0 hinv2 hr hinv4
    have h2 : (0:Int) ≤ (r - l) / 2 := Int.ediv_nonneg (by omega) (by decide)
    have h3 : (r - l) / 2 ≤ r - l := Int.ediv_le_self _ (by omega)
    rw [ffegtAux.eq_def, dif_pos hlr]
    simp only at hgt ⊢
    rw [if_neg hgt]
    apply ih
    · exact hl0
    · exact hinv2
    · omega
    · refine Or.inr ⟨by omega, by omega, ?_, by omega⟩
      exact lt_of_not_le hgt
  | case3 l r ans hlr =>
    intro hl0 hinv2 hr hinv4
    rw [ffegtAux.eq_def, dif_neg hlr]
    rcases hinv4 with ⟨h5, h6⟩ | ⟨h5, h6, h7, h8⟩
    · refine Or.inl ⟨h5, ?_⟩
      intro j hj
      exact hinv2 j (by omega) hj
    · refine Or.inr ⟨ans.toNat, by omega, by omega, h7, ?_⟩
      intro j hj
      have hjl : (j : Int) < l := by omega
      exact hinv2 j hjl (by omega)

/-! ### Small positional-update helpers -/

theorem getD_set_self' {α : Type _} (l : List α) (i : Nat) (a d : α) (h : i < l.length) :
    (l.set i a).getD i d = a := by
  have hi : i < (l.set i a).length := by simpa using h
  rw [List.getD_eq_getElem _ _ hi]
  exact List.getElem_set_self hi

theorem getD_set_ne' {α : Type _} (l : List α) (i j : Nat) (a d : α) (h : i ≠ j) :
    (l.set i a).getD j d = l.getD j d := by
  by_cases hj : j < l.length
  · have hj' : j < (l.set i a).length := by simpa using hj
    rw [List.getD_eq_getElem _ _ hj', List.getD_eq_getElem _ _ hj]
    exact List.getElem_set_ne h hj'
  · have hlen : (l.set i a).length = l.length := by simp
    rw [List.getD_eq_default _ _ (by rw [hlen]; omega), List.getD_eq_default _ _ (by omega)]

theorem get?_eq_some_getD {α : Type _} (l : List α) (i : Nat) (d : α) (h : i < l.length) :
    l.get? i = some (l.getD i d) := by
  rw [List.get?_eq_getElem?, List.getElem?_eq_getElem h, List.getD_eq_getElem _ _ h]

theorem countP_set {α : Type _} (p : α → Bool) (l : List α) (i : Nat) (a d : α)
    (hi : i < l.length) :
    (l.set i a).countP p + (if p (l.getD i d) then 1 else 0) =
      l.countP p + (if p a then 1 else 0) := by
  induction l generalizing i with
  | nil => simp at hi
  | cons x l ih =>
    cases i with
    | zero => simp [List.countP_cons]; omega
    | succ i =>
      have := ih i (by simpa using hi)
      simp only [List.set_cons_succ, List.countP_cons, List.getD_cons_succ]
      omega

theorem mod_shift_ne (n x d : Nat) (hn : 1 ≤ n) (hd1 : 1 ≤ d) (hd2 : d < n) :
    (x + d) % n ≠ x % n := by
  intro h
  rw [← Nat.mod_add_mod] at h
  have hy : x % n < n := Nat.mod_lt _ (by omega)
  by_cases hlt : x % n + d < n
  · rw [Nat.mod_eq_of_lt hlt] at h
    omega
  · have h2 : x % n + d - n < n := by omega
    rw [Nat.mod_eq_sub_mod (by omega), Nat.mod_eq_of_lt h2] at h
    omega

theorem pte_sc_false_id (e : PageTableEntry) (h : e.second_chance = false) :
    { e with second_chance := false } = e := by
  cases e
  simp only at h
  simp [h]

/-- Full specification of `findFirstElementGreaterThan` on a `≤`-sorted
array: either every element is `≤ index` and the result is `-1`, or the
result is the position of the first element strictly greater than `index`. -/
theorem findFirstElementGreaterThan_spec (array : List Nat) (index : Nat)
    (hsort : List.Sorted (· ≤ ·) array) :
    (PageTable.findFirstElementGreaterThan array index = -1 ∧
      ∀ j < array.length, array.getD j 0 ≤ index) ∨
    (∃ k : Nat, k < array.length ∧
      PageTable.findFirstElementGreaterThan array index = (k : Int) ∧
      index < array.getD k 0 ∧ ∀ j < k, array.getD j 0 ≤ index) := by
  apply ffegtAux_spec array index hsort 0 ((array.length : Int) - 1) (-1)
  · decide
  · intro j hj hjlen
    omega
  · omega
  · exact Or.inl ⟨rfl, rfl⟩

/-! ### The second-chance scan -/

theorem scEvictAux_isSome_of_fuel (fuel : Nat) :
    ∀ (st : SimState) (rr : Nat),
    1 ≤ st.table.length →
    st.table.countP (fun e => e.second_chance) + 1 ≤ fuel →
    (scEvictAux fuel st rr).isSome := by
  induction fuel with
  | zero => intro st rr hn hfuel; omega
  | succ f ih =>
    intro st rr hn hfuel
    have hlt : (rr + 1) % st.table.length < st.table.length := Nat.mod_lt _ (by omega)
    have hget := get?_eq_some_getD st.table ((rr + 1) % st.table.length) PageTableEntry.init hlt
    by_cases hsc : (st.table.getD ((rr + 1) % st.table.length) PageTableEntry.init).second_chance
    · simp only [scEvictAux, hget, hsc, if_pos]
      set e := st.table.getD ((rr + 1) % st.table.length) PageTableEntry.init with he
      have hcount := countP_set (fun e => e.second_chance) st.table
        ((rr + 1) % st.table.length) { e with second_chance := false } PageTableEntry.init hlt
      rw [← he] at hcount
      simp [hsc] at hcount
      apply ih
      · simpa using hn
      · show (st.table.set ((rr + 1) % st.table.length)
            { e with second_chance := false }).countP (fun e => e.second_chance) + 1 ≤ f
        omega
    · simp only [scEvictAux, hget]
      rw [if_neg hsc]
      simp

theorem scEvictAux_char (k : Nat) :
    ∀ (fuel : Nat) (st : SimState) (rr : Nat),
    1 ≤ st.table.length → k ≤ st.table.length → k < fuel →
    (∀ j < k, (st.table.getD ((rr + 1 + j) % st.table.length) PageTableEntry.init).second_chance = true) →
    (k < st.table.length →
      (st.table.getD ((rr + 1 + k) % st.table.length) PageTableEntry.init).second_chance = false) →
    ∃ st2,
      scEvictAux fuel st rr = some (st2, (rr + 1 + k) % st.table.length) ∧
      st2.table.length = st.table.length ∧
      st2.page_faults = st.page_faults ∧
      st2.round_robin_index = st.round_robin_index ∧
      st2.writes_to_disk = st.writes_to_disk +
        (if (st.table.getD ((rr + 1 + k) % st.table.length) PageTableEntry.init).dirty then 1 else 0) ∧
      st2.table.getD ((rr + 1 + k) % st.table.length) PageTableEntry.init =
        PageTableEntry.clear
          { st.table.getD ((rr + 1 + k) % st.table.length) PageTableEntry.init with
            second_chance := false } ∧
      (∀ j < k, (rr + 1 + j) % st.table.length ≠ (rr + 1 + k) % st.table.length →
        st2.table.getD ((rr + 1 + j) % st.table.length) PageTableEntry.init =
          { st.table.getD ((rr + 1 + j) % st.table.length) PageTableEntry.init with
            second_chance := false }) ∧
      (∀ i : Nat, (∀ j ≤ k, i ≠ (rr + 1 + j) % st.table.length) →
        st2.table.getD i PageTableEntry.init = st.table.getD i PageTableEntry.init) := by
  induction k with
  | zero =>
    intro fuel st rr hn hk hfuel hpass hvict
    obtain ⟨f, rfl⟩ : ∃ f, fuel = f + 1 := ⟨fuel - 1, by omega⟩
    have hlt : (rr + 1) % st.table.length < st.table.length := Nat.mod_lt _ (by omega)
    have hget := get?_eq_some_getD st.table ((rr + 1) % st.table.length) PageTableEntry.init hlt
    have hsc : (st.table.getD ((rr + 1) % st.table.length) PageTableEntry.init).second_chance = false := by
      have := hvict (by omega)
      simpa using this
    refine ⟨clearEntry st ((rr + 1) % st.table.length), ?_, ?_, rfl, rfl, ?_, ?_, ?_, ?_⟩
    · simp only [scEvictAux, hget, hsc, Bool.false_eq_true, if_false, Nat.add_zero]
    · simp [clearEntry]
    · simp [clearEntry]
    · simp only [Nat.add_zero]
      rw [pte_sc_false_id _ hsc]
      simp only [clearEntry]
      exact getD_set_self' _ _ _ _ hlt
    · intro j hj
      omega
    · intro i hi
      have hne0 : i ≠ (rr + 1) % st.table.length := by
        have := hi 0 (by omega)
        simpa using this
      simp only [clearEntry]
      exact getD_set_ne' _ _ _ _ _ (fun h => hne0 h.symm)
  | succ k ih =>
    intro fuel st rr hn hk hfuel hpass hvict
    obtain ⟨f, rfl⟩ : ∃ f, fuel = f + 1 := ⟨fuel - 1, by omega⟩
    have hlt : (rr + 1) % st.table.length < st.table.length := Nat.mod_lt _ (by omega)
    have hget := get?_eq_some_getD st.table ((rr + 1) % st.table.length) PageTableEntry.init hlt
    have hsc0 : (st.table.getD ((rr + 1) % st.table.length) PageTableEntry.init).second_chance = true := by
      have := hpass 0 (by omega)
      simpa using this
    have hmod : ∀ j : Nat, ((rr + 1) % st.table.length + 1 + j) % st.table.length =
        (rr + 1 + (j + 1)) % st.table.length := by
      intro j
      rw [Nat.add_assoc, Nat.mod_add_mod]
      congr 1
      omega
    have hne : ∀ a b : Nat, a < b → b - a < st.table.length →
        (rr + 1 + a) % st.table.length ≠ (rr + 1 + b) % st.table.length := by
      intro a b hab hdiff hcontra
      apply mod_shift_ne st.table.length (rr + 1 + a) (b - a) hn (by omega) hdiff
      rw [show rr + 1 + a + (b - a) = rr + 1 + b by omega]
      exact hcontra.symm
    obtain ⟨st2, hrec, hlen2, hpf2, hrr2, hwb2, hvic2, hpass2, hunt2⟩ :=
      ih f
        { st with table := (st.table.set ((rr + 1) % st.table.length)
            { st.table.getD ((rr + 1) % st.table.length) PageTableEntry.init with
              second_chance := false }) }
        ((rr + 1) % st.table.length)
        (by simpa using hn)
        (by simp; omega)
        (by omega)
        (by
          intro j hj
          simp only [List.length_set, hmod]
          have hd : (rr + 1 + 0) % st.table.length ≠ (rr + 1 + (j + 1)) % st.table.length :=
            hne 0 (j + 1) (by omega) (by omega)
          simp only [Nat.add_zero] at hd
          show ((st.table.set ((rr + 1) % st.table.length) _).getD _ _).second_chance = true
          rw [getD_set_ne' _ _ _ _ _ hd]
          exact hpass (j + 1) (by omega))
        (by
          intro hklen
          simp only [List.length_set] at hklen
          simp only [List.length_set, hmod]
          by_cases hkn : k + 1 < st.table.length
          · have hd : (rr + 1 + 0) % st.table.length ≠ (rr + 1 + (k + 1)) % st.table.length :=
              hne 0 (k + 1) (by omega) (by omega)
            simp only [Nat.add_zero] at hd
            show ((st.table.set ((rr + 1) % st.table.length) _).getD _ _).second_chance = false
            rw [getD_set_ne' _ _ _ _ _ hd]
            exact hvict hkn
          · have hkeq : k + 1 = st.table.length := by omega
            have hp0 : (rr + 1 + (k + 1)) % st.table.length = (rr + 1) % st.table.length := by
              rw [show rr + 1 + (k + 1) = (rr + 1) + st.table.length by omega]
              exact Nat.add_mod_right _ _
            rw [hp0]
            show ((st.table.set ((rr + 1) % st.table.length) _).getD _ _).second_chance = false
            rw [getD_set_self' _ _ _ _ hlt])
    simp only [List.length_set, hmod] at hrec hlen2 hpf2 hrr2 hwb2 hvic2 hpass2 hunt2
    refine ⟨st2, ?_, ?_, by simpa using hpf2, by simpa using hrr2, ?_, ?_, ?_, ?_⟩
    · simp only [scEvictAux, hget, hsc0, if_pos]
      exact hrec
    · simpa using hlen2
    · -- writebacks
      rw [hwb2]
      by_cases hkn : k + 1 < st.table.length
      · have hd : (rr + 1 + 0) % st.table.length ≠ (rr + 1 + (k + 1)) % st.table.length :=
          hne 0 (k + 1) (by omega) (by omega)
        simp only [Nat.add_zero] at hd
        rw [getD_set_ne' _ _ _ _ _ hd]
      · have hkeq : k + 1 = st.table.length := by omega
        have hp0 : (rr + 1 + (k + 1)) % st.table.length = (rr + 1) % st.table.length := by
          rw [show rr + 1 + (k + 1) = (rr + 1) + st.table.length by omega]
          exact Nat.add_mod_right _ _
        rw [hp0, getD_set_self' _ _ _ _ hlt]
    · -- the evicted entry
      rw [hvic2]
      by_cases hkn : k + 1 < st.table.length
      · have hd : (rr + 1 + 0) % st.table.length ≠ (rr + 1 + (k + 1)) % st.table.length :=
          hne 0 (k + 1) (by omega) (by omega)
        simp only [Nat.add_zero] at hd
        rw [getD_set_ne' _ _ _ _ _ hd]
      · have hkeq : k + 1 = st.table.length := by omega
        have hp0 : (rr + 1 + (k + 1)) % st.table.length = (rr + 1) % st.table.length := by
          rw [show rr + 1 + (k + 1) = (rr + 1) + st.table.length by omega]
          exact Nat.add_mod_right _ _
        rw [hp0, getD_set_self' _ _ _ _ hlt]
    · -- the skipped entries
      intro j hj hjne
      cases j with
      | zero =>
        simp only [Nat.add_zero] at hjne ⊢
        have hkn : k + 1 < st.table.length := by
          by_contra hno
          have hkeq : k + 1 = st.table.length := by omega
          apply hjne
          rw [show rr + 1 + (k + 1) = (rr + 1) + st.table.length by omega]
          exact (Nat.add_mod_right _ _).symm
        have hp0 : st2.table.getD ((rr + 1) % st.table.length) PageTableEntry.init =
            (st.table.set ((rr + 1) % st.table.length)
              { st.table.getD ((rr + 1) % st.table.length) PageTableEntry.init with
                second_chance := false }).getD ((rr + 1) % st.table.length)
              PageTableEntry.init := by
          apply hunt2
          intro j' hj'
          have hd : (rr + 1 + 0) % st.table.length ≠ (rr + 1 + (j' + 1)) % st.table.length :=
            hne 0 (j' + 1) (by omega) (by omega)
          simpa using hd
        rw [hp0, getD_set_self' _ _ _ _ hlt]
      | succ j' =>
        have hj'k : j' < k := by omega
        have hd0 : (rr + 1 + 0) % st.table.length ≠ (rr + 1 + (j' + 1)) % st.table.length :=
          hne 0 (j' + 1) (by omega) (by omega)
        simp only [Nat.add_zero] at hd0
        have := hpass2 j' hj'k hjne
        rw [getD_set_ne' _ _ _ _ _ hd0] at this
        exact this
    · -- untouched entries
      intro i hi
      have h1 : st2.table.getD i PageTableEntry.init =
          (st.table.set ((rr + 1) % st.table.length)
            { st.table.getD ((rr + 1) % st.table.length) PageTableEntry.init with
              second_chance := false }).getD i PageTableEntry.init := by
        apply hunt2
        intro j' hj'
        exact hi (j' + 1) (by omega)
      have hne0 : i ≠ (rr + 1) % st.table.length := by
        have := hi 0 (by omega)
        simpa using this
      rw [h1, getD_set_ne' _ _ _ _ _ (fun h => hne0 h.symm)]

/-- End-to-end characterisation of `SecondChanceTable.evict`: there is a
skip count `k ≤ n` such that the scan passes `k` consecutive flagged frames
(clearing their flags), evicts the frame `k + 1` steps beyond the stored
cursor, and leaves every other frame untouched. -/
theorem scEvict_char (st : SimState) (hn : 1 ≤ st.table.length) :
    ∃ k ≤ st.table.length, ∃ st',
      scEvict st = some st' ∧
      (∀ j < k, (st.table.getD ((st.round_robin_index + 1 + j) % st.table.length)
        PageTableEntry.init).second_chance = true) ∧
      (k < st.table.length →
        (st.table.getD ((st.round_robin_index + 1 + k) % st.table.length)
          PageTableEntry.init).second_chance = false) ∧
      st'.round_robin_index = (st.round_robin_index + 1 + k) % st.table.length ∧
      st'.table.length = st.table.length ∧
      st'.page_faults = st.page_faults ∧
      st'.writes_to_disk = st.writes_to_disk +
        (if (st.table.getD ((st.round_robin_index + 1 + k) % st.table.length)
          PageTableEntry.init).dirty then 1 else 0) ∧
      st'.table.getD ((st.round_robin_index + 1 + k) % st.table.length) PageTableEntry.init =
        PageTableEntry.clear
          { st.table.getD ((st.round_robin_index + 1 + k) % st.table.length)
              PageTableEntry.init with second_chance := false } ∧
      (∀ j < k, (st.round_robin_index + 1 + j) % st.table.length ≠
          (st.round_robin_index + 1 + k) % st.table.length →
        st'.table.getD ((st.round_robin_index + 1 + j) % st.table.length) PageTableEntry.init =
          { st.table.getD ((st.round_robin_index + 1 + j) % st.table.length)
              PageTableEntry.init with second_chance := false }) ∧
      (∀ i : Nat, (∀ j ≤ k, i ≠ (st.round_robin_index + 1 + j) % st.table.length) →
        st'.table.getD i PageTableEntry.init = st.table.getD i PageTableEntry.init) := by
  by_cases hex : ∃ j, j < st.table.length ∧
      (st.table.getD ((st.round_robin_index + 1 + j) % st.table.length)
        PageTableEntry.init).second_chance = false
  · obtain ⟨j0, hj0⟩ := hex
    have hfind := Nat.find_spec (⟨j0, hj0⟩ : ∃ j, j < st.table.length ∧
      (st.table.getD ((st.round_robin_index + 1 + j) % st.table.length)
        PageTableEntry.init).second_chance = false)
    set k := Nat.find (⟨j0, hj0⟩ : ∃ j, j < st.table.length ∧
      (st.table.getD ((st.round_robin_index + 1 + j) % st.table.length)
        PageTableEntry.init).second_chance = false) with hkdef
    have hkmin : ∀ m, m < k → ¬(m < st.table.length ∧
        (st.table.getD ((st.round_robin_index + 1 + m) % st.table.length)
          PageTableEntry.init).second_chance = false) := by
      intro m hm
      rw [hkdef] at hm
      exact Nat.find_min _ hm
    obtain ⟨st2, hrec, hlen2, hpf2, hrr2, hwb2, hvic2, hpass2, hunt2⟩ :=
      scEvictAux_char k (st.table.length + 1) st st.round_robin_index hn
        (by omega) (by omega)
        (by
          intro j hj
          have hmj := hkmin j hj
          rcases Bool.eq_false_or_eq_true ((st.table.getD
            ((st.round_robin_index + 1 + j) % st.table.length)
            PageTableEntry.init).second_chance) with hb | hb
          · exact hb
          · exact absurd ⟨by omega, hb⟩ hmj)
        (fun _ => hfind.2)
    refine ⟨k, by omega, { st2 with round_robin_index :=
      (st.round_robin_index + 1 + k) % st.table.length }, ?_, ?_, ?_, rfl, ?_, ?_, ?_, ?_, ?_, ?_⟩
    · simp only [scEvict, hrec]
    · intro j hj
      have hmj := hkmin j hj
      rcases Bool.eq_false_or_eq_true ((st.table.getD
        ((st.round_robin_index + 1 + j) % st.table.length)
        PageTableEntry.init).second_chance) with hb | hb
      · exact hb
      · exact absurd ⟨by omega, hb⟩ hmj
    · intro _
      exact hfind.2
    · exact hlen2
    · exact hpf2
    · exact hwb2
    · exact hvic2
    · exact hpass2
    · exact hunt2
  · push_neg at hex
    have hall : ∀ j < st.table.length,
        (st.table.getD ((st.round_robin_index + 1 + j) % st.table.length)
          PageTableEntry.init).second_chance = true := by
      intro j hj
      rcases Bool.eq_false_or_eq_true ((st.table.getD
        ((st.round_robin_index + 1 + j) % st.table.length)
        PageTableEntry.init).second_chance) with hb | hb
      · exact hb
      · exact absurd hb (hex j hj)
    obtain ⟨st2, hrec, hlen2, hpf2, hrr2, hwb2, hvic2, hpass2, hunt2⟩ :=
      scEvictAux_char st.table.length (st.table.length + 1) st st.round_robin_index hn
        (le_refl _) (by omega)
        (fun j hj => hall j hj)
        (by omega)
    refine ⟨st.table.length, le_refl _, { st2 with round_robin_index :=
      (st.round_robin_index + 1 + st.table.length) % st.table.length }, ?_, ?_, ?_,
      rfl, ?_, ?_, ?_, ?_, ?_, ?_⟩
    · simp only [scEvict, hrec]
    · exact hall
    · intro h
      omega
    · exact hlen2
    · exact hpf2
    · exact hwb2
    · exact hvic2
    · exact hpass2
    · exact hunt2

/-! ### LRU eviction -/


theorem getD_mem_of_lt {α : Type _} (l : List α) (j : Nat) (d : α) (hj : j < l.length) :
    l.getD j d ∈ l := by
  rw [List.getD_eq_getElem _ _ hj]
  exact List.getElem_mem hj

/-- `LRUTable.evict` selects the frame with the smallest `most_recent_access`
(first position wins on ties) and clears it. -/
theorem lruEvict_char (st : SimState) (hne : st.table ≠ []) :
    ∃ v < st.table.length,
      lruEvict st = some (clearEntry st v) ∧
      (∀ j < st.table.length,
        (st.table.getD v PageTableEntry.init).most_recent_access ≤
          (st.table.getD j PageTableEntry.init).most_recent_access) ∧
      (∀ j < v,
        (st.table.getD v PageTableEntry.init).most_recent_access <
          (st.table.getD j PageTableEntry.init).most_recent_access) := by
  obtain ⟨t0, ts, htab⟩ : ∃ t0 ts, st.table = t0 :: ts := by
    cases h : st.table with
    | nil => exact absurd h hne
    | cons a l => exact ⟨a, l, rfl⟩
  have hL : enumFromL 0 st.table = (0, t0) :: enumFromL 1 ts := by
    rw [htab]; rfl
  have hLlen : (enumFromL 0 st.table).length = st.table.length :=
    enumFromL_length 0 st.table
  have hLget : ∀ j, j < st.table.length →
      (enumFromL 0 st.table).getD j (0, PageTableEntry.init) =
        (j, st.table.getD j PageTableEntry.init) := by
    intro j hj
    have hj2 : j < (enumFromL 0 st.table).length := by omega
    rw [List.getD_eq_getElem _ _ hj2, enumFromL_getElem 0 j st.table hj2 hj,
      List.getD_eq_getElem _ _ hj]
    simp
  obtain ⟨j0, hj0lt, hj0eq, hj0fst⟩ :=
    firstMinPair_pos (fun q : Nat × PageTableEntry => q.2.most_recent_access)
      (0, t0) (enumFromL 1 ts) (0, PageTableEntry.init)
  rw [← hL] at hj0lt hj0eq hj0fst
  have hmin := firstMinPair_le (fun q : Nat × PageTableEntry => q.2.most_recent_access)
    (0, t0) (enumFromL 1 ts)
  have hj0tab : j0 < st.table.length := by omega
  have hj0eq' : firstMinPair (fun q : Nat × PageTableEntry => q.2.most_recent_access)
      (0, t0) (enumFromL 1 ts) = (j0, st.table.getD j0 PageTableEntry.init) := by
    rw [← hj0eq, hLget j0 hj0tab]
  refine ⟨j0, hj0tab, ?_, ?_, ?_⟩
  · rw [lruEvict, hL]
    show some (clearEntry st (firstMinPair
      (fun q : Nat × PageTableEntry => q.2.most_recent_access) (0, t0) (enumFromL 1 ts)).1) =
      some (clearEntry st j0)
    rw [hj0eq']
  · intro j hj
    have hj2 : j < (enumFromL 0 st.table).length := by omega
    have hm := hmin ((enumFromL 0 st.table).getD j (0, PageTableEntry.init)) (by
      rw [← hL]
      exact getD_mem_of_lt _ j _ hj2)
    rw [hLget j hj, hj0eq'] at hm
    exact hm
  · intro j hj
    have hjtab : j < st.table.length := by omega
    have hm := hj0fst j hj
    rw [hLget j hjtab, hj0eq'] at hm
    exact hm

/-! ### OPT eviction: supporting lemmas -/

theorem getLastD_mem {α : Type _} (l : List α) (d : α) (h : l ≠ []) : l.getLastD d ∈ l := by
  have hlen : l.length - 1 < l.length := by
    cases l with
    | nil => exact absurd rfl h
    | cons a t => simp
  rw [List.getLastD_eq_getLast?, List.getLast?_eq_getElem?, List.getElem?_eq_getElem hlen,
    Option.getD_some]
  exact List.getElem_mem hlen

theorem entryIsNotUsedAgain_eq (ti : Nat → List Nat) (e : PageTableEntry) (index pn : Nat)
    (hp : e.page = some pn) (hnil : ti pn ≠ []) :
    entryIsNotUsedAgain ti e index = some (decide ((ti pn).getLastD 0 < index)) := by
  obtain ⟨x, hx⟩ := Option.isSome_iff_exists.mp (List.getLast?_isSome.mpr hnil)
  rw [List.getLastD_eq_getLast?, hx, Option.getD_some]
  simp [entryIsNotUsedAgain, hp, hx]

theorem find?_first {α : Type _} (p : α → Bool) (l : List α) (k : Nat) (d : α)
    (hk : k < l.length) (hpk : p (l.getD k d) = true)
    (hbefore : ∀ j < k, p (l.getD j d) = false) :
    l.find? p = some (l.getD k d) := by
  induction l generalizing k with
  | nil => simp at hk
  | cons a t ih =>
    cases k with
    | zero =>
      rw [List.getD_cons_zero] at hpk ⊢
      simp [List.find?_cons, hpk]
    | succ k =>
      have ha : p a = false := by
        have := hbefore 0 (by omega)
        simpa using this
      rw [List.getD_cons_succ] at hpk ⊢
      simp only [List.find?_cons, ha]
      exact ih k (by simpa using hk) hpk
        (fun j hj => by simpa using hbefore (j + 1) (by omega))

theorem entryNextUsedAt_eq (ti : Nat → List Nat) (e : PageTableEntry) (index pn : Nat)
    (hp : e.page = some pn) (hsort : List.Sorted (· ≤ ·) (ti pn))
    (hex : ∃ x ∈ ti pn, index < x) :
    ∃ k < (ti pn).length,
      entryNextUsedAt ti e index = some ((ti pn).getD k 0) ∧
      index < (ti pn).getD k 0 ∧ (∀ j < k, (ti pn).getD j 0 ≤ index) := by
  rcases findFirstElementGreaterThan_spec (ti pn) index hsort with ⟨hn1, hall⟩ | ⟨k, hk, heq, hgt, hbef⟩
  · exfalso
    obtain ⟨x, hxmem, hxgt⟩ := hex
    obtain ⟨n, hn, rfl⟩ := List.mem_iff_getElem.mp hxmem
    have := hall n hn
    rw [List.getD_eq_getElem _ _ hn] at this
    omega
  · refine ⟨k, hk, ?_, hgt, hbef⟩
    rw [entryNextUsedAt, hp]
    simp only [heq]
    rw [if_neg (by omega)]
    simp

theorem zipFilterMap_mem (table : List PageTableEntry) (ys : List Bool)
    (hlen : ys.length = table.length) (q : Nat × PageTableEntry) :
    q ∈ (((enumFromL 0 table).zip ys).filter (fun q => q.2)).map (fun q => q.1) ↔
      ∃ m, m < table.length ∧ q = (m, table.getD m PageTableEntry.init) ∧
        ys.getD m false = true := by
  have hzlen : ((enumFromL 0 table).zip ys).length = table.length := by
    rw [List.length_zip, enumFromL_length]
    omega
  constructor
  · intro hq
    obtain ⟨x, hx, hx1⟩ := List.mem_map.mp hq
    obtain ⟨hxz, hx2⟩ := List.mem_filter.mp hx
    obtain ⟨m, hm, hzm⟩ := List.mem_iff_getElem.mp hxz
    have hmt : m < table.length := by omega
    have hmy : m < ys.length := by omega
    have hme : m < (enumFromL 0 table).length := by rw [enumFromL_length]; exact hmt
    rw [List.getElem_zip, enumFromL_getElem 0 m table hme hmt] at hzm
    refine ⟨m, hmt, ?_, ?_⟩
    · rw [← hx1, ← hzm, List.getD_eq_getElem _ _ hmt]
      simp
    · rw [List.getD_eq_getElem _ _ hmy]
      rw [← hzm] at hx2
      simpa using hx2
  · intro ⟨m, hmt, hq, hy⟩
    have hmy : m < ys.length := by omega
    have hme : m < (enumFromL 0 table).length := by rw [enumFromL_length]; exact hmt
    have hmz : m < ((enumFromL 0 table).zip ys).length := by omega
    apply List.mem_map.mpr
    refine ⟨(((enumFromL 0 table).zip ys))[m], ?_, ?_⟩
    · apply List.mem_filter.mpr
      refine ⟨List.getElem_mem hmz, ?_⟩
      rw [List.getElem_zip]
      rw [List.getD_eq_getElem _ _ hmy] at hy
      simpa using hy
    · rw [List.getElem_zip, enumFromL_getElem 0 m table hme hmt, hq,
        List.getD_eq_getElem _ _ hmt]
      simp

theorem zipFilterMap_pairwise (table : List PageTableEntry) (ys : List Bool) :
    List.Pairwise (fun a b : Nat × PageTableEntry => a.1 < b.1)
      ((((enumFromL 0 table).zip ys).filter (fun q => q.2)).map (fun q => q.1)) := by
  rw [List.pairwise_map]
  apply List.Pairwise.sublist (List.filter_sublist _)
  rw [List.pairwise_iff_getElem]
  intro i j hi hj hij
  have hit : i < table.length := by
    rw [List.length_zip, enumFromL_length] at hi
    omega
  have hjt : j < table.length := by
    rw [List.length_zip, enumFromL_length] at hj
    omega
  have hie : i < (enumFromL 0 table).length := by rw [enumFromL_length]; exact hit
  have hje : j < (enumFromL 0 table).length := by rw [enumFromL_length]; exact hjt
  rw [List.getElem_zip, List.getElem_zip, enumFromL_getElem 0 i table hie hit,
    enumFromL_getElem 0 j table hje hjt]
  simpa using hij

/-- `OptimalTable.evict`, characterised relationally.  The hypotheses state
what is true whenever the replay loop calls `evict`: every frame is occupied,
every resident page has a nonempty strictly-ascending occurrence list, and
the current index is not an occurrence of any resident page (position
`index` accesses the missing page that caused the fault). -/
theorem optEvict_char (ti : Nat → List Nat) (st : SimState) (index : Nat)
    (hne : st.table ≠ [])
    (hocc : ∀ e ∈ st.table, e.page.isSome ∧
      ti (e.page.getD 0) ≠ [] ∧ List.Sorted (· < ·) (ti (e.page.getD 0)) ∧
      index ∉ ti (e.page.getD 0)) :
    ∃ v < st.table.length,
      optEvict ti st index = some (clearEntry st v) ∧
      (((∃ j < st.table.length,
          lastRecordedUse ti (st.table.getD j PageTableEntry.init) ≤ index) ∧
        lastRecordedUse ti (st.table.getD v PageTableEntry.init) ≤ index ∧
        (∀ j < st.table.length,
          lastRecordedUse ti (st.table.getD j PageTableEntry.init) ≤ index →
          (st.table.getD v PageTableEntry.init).most_recent_access ≤
            (st.table.getD j PageTableEntry.init).most_recent_access) ∧
        (∀ j < v,
          lastRecordedUse ti (st.table.getD j PageTableEntry.init) ≤ index →
          (st.table.getD v PageTableEntry.init).most_recent_access <
            (st.table.getD j PageTableEntry.init).most_recent_access)) ∨
       ((∀ j < st.table.length,
          index < lastRecordedUse ti (st.table.getD j PageTableEntry.init)) ∧
        (∀ j < st.table.length,
          nextUseSpec ti (st.table.getD j PageTableEntry.init) index ≤
            nextUseSpec ti (st.table.getD v PageTableEntry.init) index) ∧
        (∀ j < v,
          nextUseSpec ti (st.table.getD j PageTableEntry.init) index <
            nextUseSpec ti (st.table.getD v PageTableEntry.init) index))) := by
  have hlen0 : 0 < st.table.length := by
    cases htab : st.table with
    | nil => exact absurd htab hne
    | cons a l => simp
  have hoccD : ∀ j, j < st.table.length →
      (st.table.getD j PageTableEntry.init).page.isSome ∧
      ti ((st.table.getD j PageTableEntry.init).page.getD 0) ≠ [] ∧
      List.Sorted (· < ·) (ti ((st.table.getD j PageTableEntry.init).page.getD 0)) ∧
      index ∉ ti ((st.table.getD j PageTableEntry.init).page.getD 0) :=
    fun j hj => hocc _ (getD_mem_of_lt _ j _ hj)
  have hmapSome : (listMapOpt (fun e => entryIsNotUsedAgain ti e index) st.table).isSome := by
    apply listMapOpt_isSome
    intro a ha
    obtain ⟨hps, hnil, hsort, hnot⟩ := hocc a ha
    obtain ⟨pn, hpn⟩ := Option.isSome_iff_exists.mp hps
    have hnil' : ti pn ≠ [] := by rwa [hpn, Option.getD_some] at hnil
    rw [entryIsNotUsedAgain_eq ti a index pn hpn hnil']
    simp
  obtain ⟨ys, hys⟩ := Option.isSome_iff_exists.mp hmapSome
  obtain ⟨hyslen, hysval⟩ := listMapOpt_some PageTableEntry.init false hys
  have hflag : ∀ j, j < st.table.length →
      (ys.getD j false = true ↔
        lastRecordedUse ti (st.table.getD j PageTableEntry.init) ≤ index) := by
    intro j hj
    obtain ⟨hps, hnil, hsort, hnot⟩ := hoccD j hj
    obtain ⟨pn, hpn⟩ := Option.isSome_iff_exists.mp hps
    have hnil' : ti pn ≠ [] := by rwa [hpn, Option.getD_some] at hnil
    have hnot' : index ∉ ti pn := by rwa [hpn, Option.getD_some] at hnot
    have hval := hysval j hj
    rw [entryIsNotUsedAgain_eq ti _ index pn hpn hnil'] at hval
    injection hval with hv2
    rw [← hv2]
    have hlast_mem : (ti pn).getLastD 0 ∈ ti pn := getLastD_mem _ _ hnil'
    have hlast_ne : (ti pn).getLastD 0 ≠ index := by
      intro h
      exact hnot' (h ▸ hlast_mem)
    unfold lastRecordedUse
    rw [hpn, Option.getD_some]
    simp only [decide_eq_true_eq]
    omega
  cases hnuaC : (((enumFromL 0 st.table).zip ys).filter (fun q => q.2)).map
      (fun q => q.1) with
  | cons p rest =>
    obtain ⟨j0, hj0lt, hj0eq, hj0fst⟩ :=
      firstMinPair_pos (fun q : Nat × PageTableEntry => q.2.most_recent_access)
        p rest (0, PageTableEntry.init)
    have hNmem : ∀ q : Nat × PageTableEntry, q ∈ p :: rest ↔
        ∃ m, m < st.table.length ∧ q = (m, st.table.getD m PageTableEntry.init) ∧
          ys.getD m false = true := by
      intro q
      rw [← hnuaC]
      exact zipFilterMap_mem st.table ys (by omega) q
    have hNpair : List.Pairwise (fun a b : Nat × PageTableEntry => a.1 < b.1) (p :: rest) := by
      rw [← hnuaC]
      exact zipFilterMap_pairwise st.table ys
    set w := firstMinPair (fun q : Nat × PageTableEntry => q.2.most_recent_access) p rest
      with hw
    have hwmem : w ∈ p :: rest := by
      rw [← hj0eq]
      exact getD_mem_of_lt _ j0 _ hj0lt
    obtain ⟨v, hvlt, hveq, hvflag⟩ := (hNmem w).mp hwmem
    refine ⟨v, hvlt, ?_, Or.inl ⟨⟨v, hvlt, (hflag v hvlt).mp hvflag⟩,
      (hflag v hvlt).mp hvflag, ?_, ?_⟩⟩
    · simp only [optEvict, hys, hnuaC]
      rw [← hw, hveq]
    · intro j hj hNUAj
      have hflagj := (hflag j hj).mpr hNUAj
      have hjmem : (j, st.table.getD j PageTableEntry.init) ∈ p :: rest :=
        (hNmem _).mpr ⟨j, hj, rfl, hflagj⟩
      have hle := firstMinPair_le
        (fun q : Nat × PageTableEntry => q.2.most_recent_access) p rest _ hjmem
      rw [← hw, hveq] at hle
      simpa using hle
    · intro j hjv hNUAj
      have hjlen : j < st.table.length := by omega
      have hflagj := (hflag j hjlen).mpr hNUAj
      have hjmem : (j, st.table.getD j PageTableEntry.init) ∈ p :: rest :=
        (hNmem _).mpr ⟨j, hjlen, rfl, hflagj⟩
      obtain ⟨m, hm, hmeq⟩ := List.mem_iff_getElem.mp hjmem
      have hj0get : (p :: rest)[j0] = w := by
        rw [← List.getD_eq_getElem _ (0, PageTableEntry.init) hj0lt]
        exact hj0eq
      have hmlt : m < j0 := by
        rcases Nat.lt_trichotomy m j0 with h | h | h
        · exact h
        · exfalso
          subst h
          rw [hj0get, hveq] at hmeq
          have hjv2 : v = j := congrArg Prod.fst hmeq
          omega
        · exfalso
          have hp := List.pairwise_iff_getElem.mp hNpair j0 m hj0lt hm h
          rw [hj0get, hveq, hmeq] at hp
          simp only at hp
          omega
      have hfst := hj0fst m hmlt
      rw [List.getD_eq_getElem _ _ hm, hmeq, hveq] at hfst
      simpa using hfst
  | nil =>
    have hAllFalse : ∀ j, j < st.table.length → ys.getD j false = false := by
      intro j hj
      rcases Bool.eq_false_or_eq_true (ys.getD j false) with hb | hb
      · exfalso
        have hjmem := (zipFilterMap_mem st.table ys (by omega)
          (j, st.table.getD j PageTableEntry.init)).mpr ⟨j, hj, rfl, hb⟩
        rw [hnuaC] at hjmem
        simp at hjmem
      · exact hb
    have hNoNUA : ∀ j < st.table.length,
        index < lastRecordedUse ti (st.table.getD j PageTableEntry.init) := by
      intro j hj
      by_contra hcon
      have hle : lastRecordedUse ti (st.table.getD j PageTableEntry.init) ≤ index := by
        omega
      have := (hflag j hj).mpr hle
      rw [hAllFalse j hj] at this
      cases this
    have hnextUsed : ∀ j, j < st.table.length →
        entryNextUsedAt ti (st.table.getD j PageTableEntry.init) index =
          some (nextUseSpec ti (st.table.getD j PageTableEntry.init) index) ∧
        index < nextUseSpec ti (st.table.getD j PageTableEntry.init) index := by
      intro j hj
      obtain ⟨hps, hnil, hsort, hnot⟩ := hoccD j hj
      obtain ⟨pn, hpn⟩ := Option.isSome_iff_exists.mp hps
      have hnil' : ti pn ≠ [] := by rwa [hpn, Option.getD_some] at hnil
      have hsort' : List.Sorted (· < ·) (ti pn) := by rwa [hpn, Option.getD_some] at hsort
      have hlast_mem : (ti pn).getLastD 0 ∈ ti pn := getLastD_mem _ _ hnil'
      have hlastgt : index < (ti pn).getLastD 0 := by
        have := hNoNUA j hj
        unfold lastRecordedUse at this
        rwa [hpn, Option.getD_some] at this
      obtain ⟨k, hk, heq, hgt, hbef⟩ := entryNextUsedAt_eq ti _ index pn hpn
        hsort'.le_of_lt ⟨_, hlast_mem, hlastgt⟩
      have hfind : (ti pn).find? (fun x => decide (index < x)) =
          some ((ti pn).getD k 0) := by
        apply find?_first _ _ k 0 hk
        · simpa using hgt
        · intro j' hj'
          have := hbef j' hj'
          simp only [decide_eq_false_iff_not]
          omega
      constructor
      · rw [heq]
        unfold nextUseSpec
        rw [hpn, Option.getD_some, hfind, Option.getD_some]
      · unfold nextUseSpec
        rw [hpn, Option.getD_some, hfind, Option.getD_some]
        exact hgt
    have hmap2 : (listMapOpt (fun e => entryNextUsedAt ti e index) st.table).isSome := by
      apply listMapOpt_isSome
      intro a ha
      obtain ⟨j, hj, rfl⟩ := List.mem_iff_getElem.mp ha
      have h1 := (hnextUsed j hj).1
      rw [List.getD_eq_getElem _ _ hj] at h1
      rw [h1]
      simp
    obtain ⟨us, hus⟩ := Option.isSome_iff_exists.mp hmap2
    obtain ⟨huslen, husval⟩ := listMapOpt_some PageTableEntry.init 0 hus
    have husval' : ∀ j, j < st.table.length →
        us.getD j 0 = nextUseSpec ti (st.table.getD j PageTableEntry.init) index := by
      intro j hj
      have h1 := husval j hj
      rw [(hnextUsed j hj).1] at h1
      injection h1 with h2
      exact h2.symm
    obtain ⟨u0, urest, hucons⟩ : ∃ u0 urest, us = u0 :: urest := by
      cases hc : us with
      | nil =>
        rw [hc] at huslen
        simp at huslen
        omega
      | cons a l => exact ⟨a, l, rfl⟩
    have hmax : listMax us = some (urest.foldl Nat.max u0) := by
      rw [hucons]
      rfl
    have hmmem : urest.foldl Nat.max u0 ∈ us := by
      rw [hucons]
      exact foldl_max_mem urest u0
    have hmle : ∀ x ∈ us, x ≤ urest.foldl Nat.max u0 := by
      rw [hucons]
      exact foldl_max_le urest u0
    obtain ⟨hvlt', hveq', hvne'⟩ := listIdxOf_spec hmmem 0
    have hvlt : listIdxOf (urest.foldl Nat.max u0) us < st.table.length := by omega
    refine ⟨listIdxOf (urest.foldl Nat.max u0) us, hvlt, ?_, Or.inr ⟨hNoNUA, ?_, ?_⟩⟩
    · simp only [optEvict, hys, hnuaC, hus, hmax]
    · intro j hj
      have h1 : us.getD j 0 ≤ urest.foldl Nat.max u0 :=
        hmle _ (getD_mem_of_lt us j 0 (by omega))
      have h2 := husval' j hj
      have h3 := husval' (listIdxOf (urest.foldl Nat.max u0) us) hvlt
      omega
    · intro j hjv
      have hjlen : j < st.table.length := by omega
      have h1 : us.getD j 0 ≤ urest.foldl Nat.max u0 :=
        hmle _ (getD_mem_of_lt us j 0 (by omega))
      have h2 : us.getD j 0 ≠ urest.foldl Nat.max u0 := hvne' j hjv
      have h3 := husval' j hjlen
      have h4 := husval' (listIdxOf (urest.foldl Nat.max u0) us) hvlt
      omega

/-! ### Shape of an eviction: exactly one frame is freed -/

theorem clearEntry_shape (st : SimState) (v : Nat) (hv : v < st.table.length) :
    (clearEntry st v).table.length = st.table.length ∧
    (clearEntry st v).page_faults = st.page_faults ∧
    (clearEntry st v).round_robin_index = st.round_robin_index ∧
    st.writes_to_disk ≤ (clearEntry st v).writes_to_disk ∧
    (clearEntry st v).writes_to_disk ≤ st.writes_to_disk + 1 ∧
    ((clearEntry st v).table.getD v PageTableEntry.init).page = none ∧
    ∀ j, j ≠ v →
      (clearEntry st v).table.getD j PageTableEntry.init =
        st.table.getD j PageTableEntry.init := by
  refine ⟨by simp [clearEntry], rfl, rfl, ?_, ?_, ?_, ?_⟩
  · show st.writes_to_disk ≤ st.writes_to_disk +
      (if (st.table.getD v PageTableEntry.init).dirty then 1 else 0)
    split <;> omega
  · show st.writes_to_disk +
      (if (st.table.getD v PageTableEntry.init).dirty then 1 else 0) ≤ st.writes_to_disk + 1
    split <;> omega
  · show ((st.table.set v _).getD v PageTableEntry.init).page = none
    rw [getD_set_self' _ _ _ _ hv]
    rfl
  · intro j hj
    show (st.table.set v _).getD j PageTableEntry.init = _
    exact getD_set_ne' _ _ _ _ _ (fun h => hj h.symm)

theorem scEvictAux_shape (fuel : Nat) :
    ∀ (st : SimState) (rr : Nat) (st2 : SimState) (rr2 : Nat),
    scEvictAux fuel st rr = some (st2, rr2) →
    st2.table.length = st.table.length ∧
    st2.page_faults = st.page_faults ∧
    st2.round_robin_index = st.round_robin_index ∧
    st.writes_to_disk ≤ st2.writes_to_disk ∧
    st2.writes_to_disk ≤ st.writes_to_disk + 1 ∧
    ∃ v < st.table.length,
      (st2.table.getD v PageTableEntry.init).page = none ∧
      ∀ j < st.table.length, j ≠ v →
        (st2.table.getD j PageTableEntry.init).page =
          (st.table.getD j PageTableEntry.init).page := by
  induction fuel with
  | zero =>
    intro st rr st2 rr2 h
    simp [scEvictAux] at h
  | succ f ih =>
    intro st rr st2 rr2 h
    simp only [scEvictAux] at h
    cases hget : st.table.get? ((rr + 1) % st.table.length) with
    | none => rw [hget] at h; simp at h
    | some e =>
      have hlt : (rr + 1) % st.table.length < st.table.length := by
        by_contra hno
        rw [List.get?_eq_none.mpr (by omega)] at hget
        cases hget
      have hgetD : e = st.table.getD ((rr + 1) % st.table.length) PageTableEntry.init := by
        rw [get?_eq_some_getD st.table _ PageTableEntry.init hlt] at hget
        exact (Option.some.inj hget).symm
      by_cases hsc : e.second_chance
      · simp only [hget, hsc, if_pos] at h
        obtain ⟨hlen, hpf, hrr, hwb1, hwb2, v, hvlt, hvpage, hother⟩ := ih _ _ _ _ h
        simp only [List.length_set] at hlen hvlt hother
        refine ⟨hlen, hpf, hrr, hwb1, hwb2, v, hvlt, hvpage, ?_⟩
        intro j hj hjv
        rw [hother j hj hjv]
        by_cases hjr : j = (rr + 1) % st.table.length
        · subst hjr
          rw [getD_set_self' _ _ _ _ hlt, ← hgetD]
        · exact congrArg PageTableEntry.page (getD_set_ne' _ _ _ _ _ (fun hx => hjr hx.symm))
      · have hsc' : e.second_chance = false := by simpa using hsc
        simp only [hget, hsc', Bool.false_eq_true, if_false] at h
        obtain ⟨h1, h2⟩ := Prod.mk.inj (Option.some.inj h)
        subst h1
        obtain ⟨c1, c2, c3, c4, c5, c6, c7⟩ := clearEntry_shape st ((rr + 1) % st.table.length) hlt
        exact ⟨c1, c2, c3, c4, c5, (rr + 1) % st.table.length, hlt, c6,
          fun j _ hjv => congrArg PageTableEntry.page (c7 j hjv)⟩

/-- Whenever `evict` succeeds, it freed exactly one frame (every other
frame's residency is untouched), left `page_faults` alone, and increased
`writes_to_disk` by at most one. -/
theorem evict_shape (p : EvictionType) (ti : Nat → List Nat) (st : SimState) (index : Nat)
    (st' : SimState) (h : evict p ti st index = some st') :
    st'.table.length = st.table.length ∧
    st'.page_faults = st.page_faults ∧
    st.writes_to_disk ≤ st'.writes_to_disk ∧
    st'.writes_to_disk ≤ st.writes_to_disk + 1 ∧
    ∃ v < st.table.length,
      (st'.table.getD v PageTableEntry.init).page = none ∧
      ∀ j < st.table.length, j ≠ v →
        (st'.table.getD j PageTableEntry.init).page =
          (st.table.getD j PageTableEntry.init).page := by
  cases p with
  | lru =>
    simp only [evict] at h
    cases htab : enumFromL 0 st.table with
    | nil =>
      simp only [lruEvict, htab] at h
      cases h
    | cons q qs =>
      simp only [lruEvict, htab] at h
      have hw : firstMinPair (fun q : Nat × PageTableEntry => q.2.most_recent_access) q qs
          ∈ q :: qs := by
        obtain ⟨j0, hj0lt, hj0eq, _⟩ := firstMinPair_pos
          (fun q : Nat × PageTableEntry => q.2.most_recent_access) q qs (0, PageTableEntry.init)
        rw [← hj0eq]
        exact getD_mem_of_lt _ j0 _ hj0lt
      rw [← htab] at hw
      obtain ⟨m, hm, hmeq⟩ := List.mem_iff_getElem.mp hw
      have hmlen : m < st.table.length := by
        rw [enumFromL_length] at hm
        exact hm
      have hfst : (firstMinPair (fun q : Nat × PageTableEntry => q.2.most_recent_access)
          q qs).1 = m := by
        rw [← hmeq, enumFromL_getElem 0 m st.table hm hmlen]
        simp
      rw [hfst] at h
      have hst' : st' = clearEntry st m := (Option.some.inj h).symm
      subst hst'
      obtain ⟨c1, c2, c3, c4, c5, c6, c7⟩ := clearEntry_shape st m hmlen
      exact ⟨c1, c2, c4, c5, m, hmlen, c6,
        fun j _ hjv => congrArg PageTableEntry.page (c7 j hjv)⟩
  | second =>
    simp only [evict, scEvict] at h
    cases hrec : scEvictAux (st.table.length + 1) st st.round_robin_index with
    | none => rw [hrec] at h; simp at h
    | some pr =>
      obtain ⟨st2, rr2⟩ := pr
      rw [hrec] at h
      have hst' : st' = { st2 with round_robin_index := rr2 } := (Option.some.inj h).symm
      obtain ⟨c1, c2, c3, c4, c5, v, hvlt, hvpage, hother⟩ :=
        scEvictAux_shape _ _ _ _ _ hrec
      subst hst'
      exact ⟨c1, c2, c4, c5, v, hvlt, hvpage, hother⟩
  | opt =>
    simp only [evict, optEvict] at h
    cases hmap : listMapOpt (fun e => entryIsNotUsedAgain ti e index) st.table with
    | none => rw [hmap] at h; simp at h
    | some ys =>
      obtain ⟨hyslen, _⟩ := listMapOpt_some PageTableEntry.init false hmap
      cases hnuaC : (((enumFromL 0 st.table).zip ys).filter (fun q => q.2)).map
          (fun q => q.1) with
      | cons q qs =>
        simp only [hmap, hnuaC] at h
        have hw : firstMinPair (fun q : Nat × PageTableEntry => q.2.most_recent_access) q qs
            ∈ q :: qs := by
          obtain ⟨j0, hj0lt, hj0eq, _⟩ := firstMinPair_pos
            (fun q : Nat × PageTableEntry => q.2.most_recent_access) q qs
            (0, PageTableEntry.init)
          rw [← hj0eq]
          exact getD_mem_of_lt _ j0 _ hj0lt
        obtain ⟨m, hmlen, hmeq, _⟩ := (zipFilterMap_mem st.table ys (by omega) _).mp
          (hnuaC ▸ hw)
        rw [hmeq] at h
        have hst' : st' = clearEntry st m := (Option.some.inj h).symm
        subst hst'
        obtain ⟨c1, c2, c3, c4, c5, c6, c7⟩ := clearEntry_shape st m hmlen
        exact ⟨c1, c2, c4, c5, m, hmlen, c6,
          fun j _ hjv => congrArg PageTableEntry.page (c7 j hjv)⟩
      | nil =>
        simp only [hmap, hnuaC] at h
        cases hmap2 : listMapOpt (fun e => entryNextUsedAt ti e index) st.table with
        | none => rw [hmap2] at h; simp at h
        | some us =>
          obtain ⟨huslen, _⟩ := listMapOpt_some PageTableEntry.init 0 hmap2
          cases hus : us with
          | nil =>
            rw [hus] at hmap2
            simp only [hmap2, listMax] at h
            cases h
          | cons u0 urest =>
            rw [hus] at hmap2
            simp only [hmap2, listMax] at h
            have hmmem : urest.foldl Nat.max u0 ∈ u0 :: urest := foldl_max_mem urest u0
            obtain ⟨hvlt', _, _⟩ := listIdxOf_spec hmmem 0
            have hvlen : listIdxOf (urest.foldl Nat.max u0) (u0 :: urest) <
                st.table.length := by
              rw [hus] at huslen
              simp only [List.length_cons] at huslen hvlt'
              omega
            have hst' : st' = clearEntry st (listIdxOf (urest.foldl Nat.max u0)
                (u0 :: urest)) := (Option.some.inj h).symm
            subst hst'
            obtain ⟨c1, c2, c3, c4, c5, c6, c7⟩ := clearEntry_shape st _ hvlen
            exact ⟨c1, c2, c4, c5, _, hvlen, c6,
              fun j _ hjv => congrArg PageTableEntry.page (c7 j hjv)⟩

/-! ### The query step -/

theorem access_page (e : PageTableEntry) (t : AccessType) (i : Nat) :
    (e.access t i).page = e.page := by
  cases t <;> rfl

theorem tableIsFull_iff (table : List PageTableEntry) :
    tableIsFull table = true ↔
      ∀ j < table.length, (table.getD j PageTableEntry.init).page.isSome := by
  rw [tableIsFull, List.all_eq_true]
  constructor
  · intro h j hj
    exact h _ (getD_mem_of_lt _ j _ hj)
  · intro h e he
    obtain ⟨j, hj, rfl⟩ := List.mem_iff_getElem.mp he
    have hx := h j hj
    rwa [List.getD_eq_getElem _ _ hj] at hx

theorem load_char (st : SimState) (pn : Nat) (stL : SimState) (i : Nat)
    (h : PageTable.load st pn = some (stL, i)) :
    i < st.table.length ∧
    (st.table.getD i PageTableEntry.init).page = none ∧
    (∀ j < i, (st.table.getD j PageTableEntry.init).page ≠ none) ∧
    stL = { st with table := (st.table.set i
      ((st.table.getD i PageTableEntry.init).setPage pn)) } := by
  cases hfind : findIdxO (fun e => e.page == none) st.table with
  | none =>
    simp only [PageTable.load, hfind] at h
    cases h
  | some i' =>
    simp only [PageTable.load, hfind, Option.some.injEq, Prod.mk.injEq] at h
    obtain ⟨h1, h2⟩ := h
    subst h2
    obtain ⟨hi1, hi2, hi3⟩ := findIdxO_eq_some PageTableEntry.init hfind
    refine ⟨hi1, by simpa using hi2, ?_, h1.symm⟩
    intro j hj hcon
    have := hi3 j hj
    rw [hcon] at this
    simp at this

theorem set_set_access (tb : List PageTableEntry) (i : Nat) (E : PageTableEntry)
    (t : AccessType) (index : Nat) (hi : i < tb.length) :
    (tb.set i E).set i (((tb.set i E).getD i PageTableEntry.init).access t index) =
      tb.set i (E.access t index) := by
  rw [getD_set_self' _ _ _ _ hi, List.set_set]

/-- One `query` step preserves the free-frame invariant, keeps the table
size, raises `page_faults` by at most one, never decreases either counter,
and increases `writes_to_disk` by no more than it increases `page_faults`. -/
theorem query_inv (p : EvictionType) (ti : Nat → List Nat) (st : SimState)
    (t : AccessType) (pn index : Nat) (st' : SimState)
    (h : query p ti st t pn index = some st')
    (hinv : ∀ j < st.table.length,
      (st.table.getD j PageTableEntry.init).page = none →
      st.table.getD j PageTableEntry.init = PageTableEntry.init) :
    (∀ j < st'.table.length,
      (st'.table.getD j PageTableEntry.init).page = none →
      st'.table.getD j PageTableEntry.init = PageTableEntry.init) ∧
    st'.table.length = st.table.length ∧
    st.page_faults ≤ st'.page_faults ∧
    st'.page_faults ≤ st.page_faults + 1 ∧
    st.writes_to_disk ≤ st'.writes_to_disk ∧
    st'.writes_to_disk + st.page_faults ≤ st.writes_to_disk + st'.page_faults := by
  cases hfind : getTableEntryByAddress st.table pn with
  | some i =>
    simp only [query, hfind, Option.some.injEq] at h
    obtain ⟨hi1, hi2, hi3⟩ := findIdxO_eq_some PageTableEntry.init hfind
    have hpage : (st.table.getD i PageTableEntry.init).page = some pn := by
      simpa using hi2
    subst h
    refine ⟨?_, by simp, le_refl _, Nat.le_succ _, le_refl _, le_refl _⟩
    intro j hj hpnone
    simp only [List.length_set] at hj
    by_cases hji : j = i
    · subst hji
      rw [getD_set_self' _ _ _ _ hi1] at hpnone
      simp only at hpnone
      rw [access_page, hpage] at hpnone
      cases hpnone
    · rw [getD_set_ne' _ _ _ _ _ (fun hx => hji hx.symm)] at hpnone ⊢
      exact hinv j hj hpnone
  | none =>
    simp only [query, hfind] at h
    cases hEAL : evictAndLoad p ti st pn index with
    | none =>
      simp only [hEAL] at h
      cases h
    | some pr =>
      obtain ⟨st1, i⟩ := pr
      simp only [hEAL, Option.some.injEq] at h
      subst h
      have hEAL2 := hEAL
      simp only [evictAndLoad] at hEAL2
      cases hful : tableIsFull st.table with
      | false =>
        rw [hful] at hEAL2
        simp only [Bool.false_eq_true, if_false] at hEAL2
        obtain ⟨hl1, hl2, hl3, hl4⟩ := load_char st pn st1 i hEAL2
        subst hl4
        refine ⟨?_, by simp, Nat.le_succ _, le_refl _, le_refl _, Nat.le_succ _⟩
        intro j hj hpnone
        simp only [List.length_set] at hj
        simp only at hpnone ⊢
        rw [set_set_access st.table i _ t index hl1] at hpnone ⊢
        by_cases hji : j = i
        · subst hji
          exfalso
          rw [getD_set_self' _ _ _ _ hl1] at hpnone
          rw [access_page] at hpnone
          simp [PageTableEntry.setPage] at hpnone
        · rw [getD_set_ne' _ _ _ _ _ (fun hx => hji hx.symm)] at hpnone ⊢
          exact hinv j hj hpnone
      | true =>
        rw [hful] at hEAL2
        simp only [if_true] at hEAL2
        cases hev : evict p ti st index with
        | none => rw [hev] at hEAL2; cases hEAL2
        | some stE =>
          rw [hev] at hEAL2
          simp only at hEAL2
          obtain ⟨e1, e2, e3, e4, w, hwlt, hwpage, hother⟩ := evict_shape p ti st index stE hev
          obtain ⟨hl1, hl2, hl3, hl4⟩ := load_char stE pn st1 i hEAL2
          have hallsome := (tableIsFull_iff st.table).mp hful
          have hiw : i = w := by
            by_contra hne
            have hilen : i < st.table.length := by omega
            have hoth := hother i hilen hne
            rw [hl2] at hoth
            have hsome := hallsome i hilen
            rw [← hoth] at hsome
            cases hsome
          subst hiw
          subst hl4
          refine ⟨?_, by simp only [List.length_set]; exact e1,
            by show st.page_faults ≤ stE.page_faults + 1; omega,
            by show stE.page_faults + 1 ≤ st.page_faults + 1; omega,
            by show st.writes_to_disk ≤ stE.writes_to_disk; exact e3,
            by show stE.writes_to_disk + st.page_faults ≤
              st.writes_to_disk + (stE.page_faults + 1); omega⟩
          intro j hj hpnone
          exfalso
          simp only [List.length_set] at hj
          simp only at hpnone
          rw [set_set_access stE.table i _ t index hl1] at hpnone
          by_cases hji : j = i
          · subst hji
            rw [getD_set_self' _ _ _ _ hl1] at hpnone
            rw [access_page] at hpnone
            simp [PageTableEntry.setPage] at hpnone
          · rw [getD_set_ne' _ _ _ _ _ (fun hx => hji hx.symm)] at hpnone
            have hjlen : j < st.table.length := by omega
            have hoth := hother j hjlen hji
            rw [hpnone] at hoth
            have hsome := hallsome j hjlen
            rw [← hoth] at hsome
            cases hsome

/-! ### Replay-level facts -/

theorem initState_inv (n : Nat) : ∀ j < n,
    (initState n).table.getD j PageTableEntry.init = PageTableEntry.init := by
  intro j hj
  have hj' : j < (List.replicate n PageTableEntry.init).length := by simpa using hj
  show (List.replicate n PageTableEntry.init).getD j PageTableEntry.init = _
  rw [List.getD_eq_getElem _ _ hj', List.getElem_replicate]

theorem replay_inv (p : EvictionType) (offset : Nat) (ti : Nat → List Nat)
    (trace : List TraceRec) :
    ∀ (st : SimState) (index : Nat) (st' : SimState),
    replay p offset ti st trace index = some st' →
    (∀ j < st.table.length,
      (st.table.getD j PageTableEntry.init).page = none →
      st.table.getD j PageTableEntry.init = PageTableEntry.init) →
    (∀ j < st'.table.length,
      (st'.table.getD j PageTableEntry.init).page = none →
      st'.table.getD j PageTableEntry.init = PageTableEntry.init) ∧
    st'.table.length = st.table.length ∧
    st.page_faults ≤ st'.page_faults ∧
    st'.page_faults ≤ st.page_faults + trace.length ∧
    st.writes_to_disk ≤ st'.writes_to_disk ∧
    st'.writes_to_disk + st.page_faults ≤ st.writes_to_disk + st'.page_faults := by
  induction trace with
  | nil =>
    intro st index st' h hinv
    simp only [replay, Option.some.injEq] at h
    subst h
    exact ⟨hinv, rfl, le_refl _, by simp, le_refl _, le_refl _⟩
  | cons rec rest ih =>
    intro st index st' h hinv
    obtain ⟨t, a⟩ := rec
    simp only [replay] at h
    cases hq : query p ti st t (a >>> offset) index with
    | none => rw [hq] at h; cases h
    | some st1 =>
      rw [hq] at h
      obtain ⟨q1, q2, q3, q4, q5, q6⟩ := query_inv p ti st t (a >>> offset) index st1 hq hinv
      obtain ⟨r1, r2, r3, r4, r5, r6⟩ := ih st1 (index + 1) st' h q1
      refine ⟨r1, by omega, by omega, ?_, by omega, by omega⟩
      simp only [List.length_cons]
      omega

/-- After a successful eviction on a full table, the freshly freed frame
guarantees that `load` finds a free slot: its fatal branch cannot fire. -/
theorem load_after_evict (p : EvictionType) (ti : Nat → List Nat) (st : SimState)
    (index : Nat) (st' : SimState) (pn : Nat)
    (hev : evict p ti st index = some st') :
    (∃ j < st'.table.length, (st'.table.getD j PageTableEntry.init).page = none) ∧
    (PageTable.load st' pn).isSome := by
  obtain ⟨e1, _, _, _, v, hvlt, hvpage, _⟩ := evict_shape p ti st index st' hev
  have hvlt' : v < st'.table.length := by omega
  refine ⟨⟨v, hvlt', hvpage⟩, ?_⟩
  have hfi : (findIdxO (fun e => e.page == none) st'.table).isSome := by
    apply findIdxO_isSome PageTableEntry.init hvlt'
    rw [hvpage]
    rfl
  obtain ⟨i, hi⟩ := Option.isSome_iff_exists.mp hfi
  simp [PageTable.load, hi]

/-! ### The claims -/

/-- Claim C1: for every eviction decision of the OPT policy — invoked only
when every frame is occupied, each resident page having a nonempty ascending
occurrence list that does not contain the current index (position `index`
accesses the faulting page, which is resident in no frame) — the victim is
chosen as follows: if some occupied frame holds a page whose last recorded
future-access position is ≤ the current index, the victim is the frame among
those with the smallest `most_recent_access`, ties broken by earliest
frame-array position; otherwise the victim is the frame whose next
future-access position is maximal, ties broken by earliest frame-array
position. -/
theorem claim_C1 (ti : Nat → List Nat) (st : SimState) (index : Nat)
    (hne : st.table ≠ [])
    (hocc : ∀ e ∈ st.table, e.page.isSome ∧
      ti (e.page.getD 0) ≠ [] ∧ List.Sorted (· < ·) (ti (e.page.getD 0)) ∧
      index ∉ ti (e.page.getD 0)) :
    ∃ v < st.table.length,
      optEvict ti st index = some (clearEntry st v) ∧
      (((∃ j < st.table.length,
          lastRecordedUse ti (st.table.getD j PageTableEntry.init) ≤ index) ∧
        lastRecordedUse ti (st.table.getD v PageTableEntry.init) ≤ index ∧
        (∀ j < st.table.length,
          lastRecordedUse ti (st.table.getD j PageTableEntry.init) ≤ index →
          (st.table.getD v PageTableEntry.init).most_recent_access ≤
            (st.table.getD j PageTableEntry.init).most_recent_access) ∧
        (∀ j < v,
          lastRecordedUse ti (st.table.getD j PageTableEntry.init) ≤ index →
          (st.table.getD v PageTableEntry.init).most_recent_access <
            (st.table.getD j PageTableEntry.init).most_recent_access)) ∨
       ((∀ j < st.table.length,
          index < lastRecordedUse ti (st.table.getD j PageTableEntry.init)) ∧
        (∀ j < st.table.length,
          nextUseSpec ti (st.table.getD j PageTableEntry.init) index ≤
            nextUseSpec ti (st.table.getD v PageTableEntry.init) index) ∧
        (∀ j < v,
          nextUseSpec ti (st.table.getD j PageTableEntry.init) index <
            nextUseSpec ti (st.table.getD v PageTableEntry.init) index))) :=
  optEvict_char ti st index hne hocc

/-- Concrete instance of C1: a full two-frame table at index 2, page 1 used
again at position 3, page 2 never used again. -/
theorem claim_C1_witness :
    stC1.table ≠ [] ∧ (optEvict tiC1 stC1 2).isSome := by
  refine ⟨by decide, ?_⟩
  obtain ⟨v, hv, heq, hrest⟩ := claim_C1 tiC1 stC1 2 (by decide) (by decide)
  rw [heq]
  rfl

/-- Claim C2: every eviction decision of the SecondChance policy advances a
circular cursor one step at a time, wrapping modulo the frame count (and the
very first scan of a run begins at frame 0, the stored cursor standing for
Python's `-1`); every frame passed whose `second_chance` flag is true has
the flag set to false and is skipped; the first frame encountered with
`second_chance` false — after `k` skips, the frame `k + 1` steps beyond the
cursor — is the one evicted, and the cursor stops on it. -/
theorem claim_C2 :
    (∀ st : SimState, 1 ≤ st.table.length →
      ∃ k ≤ st.table.length, ∃ st',
        scEvict st = some st' ∧
        (∀ j < k, (st.table.getD ((st.round_robin_index + 1 + j) % st.table.length)
          PageTableEntry.init).second_chance = true) ∧
        (k < st.table.length →
          (st.table.getD ((st.round_robin_index + 1 + k) % st.table.length)
            PageTableEntry.init).second_chance = false) ∧
        st'.round_robin_index = (st.round_robin_index + 1 + k) % st.table.length ∧
        st'.table.length = st.table.length ∧
        st'.page_faults = st.page_faults ∧
        st'.writes_to_disk = st.writes_to_disk +
          (if (st.table.getD ((st.round_robin_index + 1 + k) % st.table.length)
            PageTableEntry.init).dirty then 1 else 0) ∧
        st'.table.getD ((st.round_robin_index + 1 + k) % st.table.length)
            PageTableEntry.init =
          PageTableEntry.clear
            { st.table.getD ((st.round_robin_index + 1 + k) % st.table.length)
                PageTableEntry.init with second_chance := false } ∧
        (∀ j < k, (st.round_robin_index + 1 + j) % st.table.length ≠
            (st.round_robin_index + 1 + k) % st.table.length →
          st'.table.getD ((st.round_robin_index + 1 + j) % st.table.length)
              PageTableEntry.init =
            { st.table.getD ((st.round_robin_index + 1 + j) % st.table.length)
                PageTableEntry.init with second_chance := false }) ∧
        (∀ i : Nat, (∀ j ≤ k, i ≠ (st.round_robin_index + 1 + j) % st.table.length) →
          st'.table.getD i PageTableEntry.init = st.table.getD i PageTableEntry.init)) ∧
    (∀ n : Nat, 1 ≤ n → ((initState n).round_robin_index + 1) % n = 0) := by
  constructor
  · intro st hn
    exact scEvict_char st hn
  · intro n hn
    show (n - 1 + 1) % n = 0
    rw [Nat.sub_add_cancel hn, Nat.mod_self]

/-- Concrete instance of C2: a three-frame table with flags true, false,
true and cursor 2, so the first scan starts at frame 0. -/
theorem claim_C2_witness :
    (1 ≤ stC2.table.length ∧ (scEvict stC2).isSome) ∧
    ((initState 3).round_robin_index + 1) % 3 = 0 := by
  refine ⟨⟨by decide, ?_⟩, claim_C2.2 3 (by decide)⟩
  obtain ⟨k, hk, st', heq, hrest⟩ := claim_C2.1 stC2 (by decide)
  rw [heq]
  rfl

/-- Claim C3: for every eviction decision of the LRU policy on a nonempty
table, the victim is the frame with the smallest `most_recent_access`
timestamp, and when several frames share that smallest timestamp the one at
the earliest frame-array position (the first minimum encountered in the
scan) is evicted. -/
theorem claim_C3 (st : SimState) (hne : st.table ≠ []) :
    ∃ v < st.table.length,
      lruEvict st = some (clearEntry st v) ∧
      (∀ j < st.table.length,
        (st.table.getD v PageTableEntry.init).most_recent_access ≤
          (st.table.getD j PageTableEntry.init).most_recent_access) ∧
      (∀ j < v,
        (st.table.getD v PageTableEntry.init).most_recent_access <
          (st.table.getD j PageTableEntry.init).most_recent_access) :=
  lruEvict_char st hne

/-- Concrete instance of C3: two frames with timestamps 5 and 3. -/
theorem claim_C3_witness :
    stC3.table ≠ [] ∧ (lruEvict stC3).isSome := by
  refine ⟨by decide, ?_⟩
  obtain ⟨v, hv, heq, hrest⟩ := claim_C3 stC3 (by decide)
  rw [heq]
  rfl

/-- Claim C4: in every state reachable by replaying a trace from a fresh
table (any policy, any offset, any occurrence map — so in particular any
prefix of a run), whenever a frame entry's `page` field is `None`, every
other field of that entry holds its zero/false default: `dirty` is false,
`most_recent_access` is 0, `num_accesses` is 0, and `second_chance` is
false. -/
theorem claim_C4 (p : EvictionType) (offset : Nat) (ti : Nat → List Nat)
    (n : Nat) (trace : List TraceRec) (st' : SimState)
    (h : replay p offset ti (initState n) trace 0 = some st') :
    ∀ j < st'.table.length,
      (st'.table.getD j PageTableEntry.init).page = none →
      (st'.table.getD j PageTableEntry.init).dirty = false ∧
      (st'.table.getD j PageTableEntry.init).most_recent_access = 0 ∧
      (st'.table.getD j PageTableEntry.init).num_accesses = 0 ∧
      (st'.table.getD j PageTableEntry.init).second_chance = false := by
  have hinit : ∀ j < (initState n).table.length,
      ((initState n).table.getD j PageTableEntry.init).page = none →
      (initState n).table.getD j PageTableEntry.init = PageTableEntry.init := by
    intro j hj _
    exact initState_inv n j (by simpa [initState] using hj)
  obtain ⟨r1, _⟩ := replay_inv p offset ti trace (initState n) 0 st' h hinit
  intro j hj hpn
  rw [r1 j hj hpn]
  exact ⟨rfl, rfl, rfl, rfl⟩

/-- Concrete instance of C4: after replaying `l 0x1000` on two frames under
LRU, the untouched second frame is free and entirely default. -/
theorem claim_C4_witness :
    replay .lru 12 (fun _ => []) (initState 2) [(.l, 4096)] 0 = some stC4 ∧
    ((stC4.table.getD 1 PageTableEntry.init).dirty = false ∧
     (stC4.table.getD 1 PageTableEntry.init).most_recent_access = 0 ∧
     (stC4.table.getD 1 PageTableEntry.init).num_accesses = 0 ∧
     (stC4.table.getD 1 PageTableEntry.init).second_chance = false) :=
  ⟨by decide,
    claim_C4 .lru 12 (fun _ => []) 2 [(.l, 4096)] stC4 (by decide) 1 (by decide) (by decide)⟩

theorem query_counters (p : EvictionType) (ti : Nat → List Nat) (st : SimState)
    (t : AccessType) (pn index : Nat) (st' : SimState)
    (h : query p ti st t pn index = some st') :
    st.page_faults ≤ st'.page_faults ∧ st.writes_to_disk ≤ st'.writes_to_disk := by
  cases hfind : getTableEntryByAddress st.table pn with
  | some i =>
    simp only [query, hfind, Option.some.injEq] at h
    subst h
    exact ⟨le_refl _, le_refl _⟩
  | none =>
    simp only [query, hfind] at h
    cases hEAL : evictAndLoad p ti st pn index with
    | none =>
      simp only [hEAL] at h
      cases h
    | some pr =>
      obtain ⟨st1, i⟩ := pr
      simp only [hEAL, Option.some.injEq] at h
      subst h
      have hEAL2 := hEAL
      simp only [evictAndLoad] at hEAL2
      cases hful : tableIsFull st.table with
      | false =>
        rw [hful] at hEAL2
        simp only [Bool.false_eq_true, if_false] at hEAL2
        obtain ⟨hl1, hl2, hl3, hl4⟩ := load_char st pn st1 i hEAL2
        subst hl4
        exact ⟨Nat.le_succ _, le_refl _⟩
      | true =>
        rw [hful] at hEAL2
        simp only [if_true] at hEAL2
        cases hev : evict p ti st index with
        | none => rw [hev] at hEAL2; cases hEAL2
        | some stE =>
          rw [hev] at hEAL2
          simp only at hEAL2
          obtain ⟨e1, e2, e3, e4, w, hwlt, hwpage, hother⟩ := evict_shape p ti st index stE hev
          obtain ⟨hl1, hl2, hl3, hl4⟩ := load_char stE pn st1 i hEAL2
          subst hl4
          constructor
          · show st.page_faults ≤ stE.page_faults + 1
            omega
          · show st.writes_to_disk ≤ stE.writes_to_disk
            exact e3

/-- Claim C5: each individual `query` call never decreases `page_faults` or
`writes_to_disk`, and after replaying any trace from a fresh table the final
`page_faults` lies between 0 and the number of accesses while
`writes_to_disk` never exceeds `page_faults`. -/
theorem claim_C5 :
    (∀ (p : EvictionType) (ti : Nat → List Nat) (st : SimState) (t : AccessType)
      (pn index : Nat) (st' : SimState),
      query p ti st t pn index = some st' →
      st.page_faults ≤ st'.page_faults ∧ st.writes_to_disk ≤ st'.writes_to_disk) ∧
    (∀ (p : EvictionType) (offset : Nat) (ti : Nat → List Nat) (n : Nat)
      (trace : List TraceRec) (st' : SimState),
      replay p offset ti (initState n) trace 0 = some st' →
      st'.page_faults ≤ trace.length ∧ st'.writes_to_disk ≤ st'.page_faults) := by
  constructor
  · exact query_counters
  · intro p offset ti n trace st' h
    have hinit : ∀ j < (initState n).table.length,
        ((initState n).table.getD j PageTableEntry.init).page = none →
        (initState n).table.getD j PageTableEntry.init = PageTableEntry.init := by
      intro j hj _
      exact initState_inv n j (by simpa [initState] using hj)
    obtain ⟨_, _, _, r4, _, r6⟩ := replay_inv p offset ti trace (initState n) 0 st' h hinit
    constructor
    · have hz : (initState n).page_faults = 0 := rfl
      omega
    · have hz : (initState n).page_faults = 0 := rfl
      have hz2 : (initState n).writes_to_disk = 0 := rfl
      omega

/-- Concrete instance of C5: one store query from a fresh single-frame table,
and the one-record replay of C4's fixture. -/
theorem claim_C5_witness :
    (query .lru (fun _ => []) (initState 1) .s 9 0 = some stC5 ∧
      (initState 1).page_faults ≤ stC5.page_faults ∧
      (initState 1).writes_to_disk ≤ stC5.writes_to_disk) ∧
    (replay .lru 12 (fun _ => []) (initState 2) [(.l, 4096)] 0 = some stC4 ∧
      stC4.page_faults ≤ ([((.l : AccessType), 4096)] : List TraceRec).length ∧
      stC4.writes_to_disk ≤ stC4.page_faults) := by
  refine ⟨⟨by decide, ?_⟩, ⟨by decide, ?_⟩⟩
  · have := claim_C5.1 .lru (fun _ => []) (initState 1) .s 9 0 stC5 (by decide)
    exact this
  · have := claim_C5.2 .lru 12 (fun _ => []) 2 [(.l, 4096)] stC4 (by decide)
    exact this

/-- Claim C7: with offset width 12 and frame count 2, replaying the trace
`l 0x1000`, `l 0x2000`, `l 0x3000`, `l 0x1000` under LRU yields 4 faults and
0 writebacks (all four accesses miss), while under OPT page 2 is evicted at
index 2 (after three records the table holds pages 1 and 3), the final
access to 0x1000 hits, and the run yields 3 faults and 0 writebacks. -/
theorem claim_C7 :
    (run .lru 12 2 [(.l, 0x1000), (.l, 0x2000), (.l, 0x3000), (.l, 0x1000)]).map
      (fun st => (st.page_faults, st.writes_to_disk)) = some (4, 0) ∧
    (run .opt 12 2 [(.l, 0x1000), (.l, 0x2000), (.l, 0x3000), (.l, 0x1000)]).map
      (fun st => (st.page_faults, st.writes_to_disk)) = some (3, 0) ∧
    (replay .opt 12
        (traceIndices 12 [(.l, 0x1000), (.l, 0x2000), (.l, 0x3000), (.l, 0x1000)])
        (initState 2) [(.l, 0x1000), (.l, 0x2000), (.l, 0x3000)] 0).map
      (fun st => st.table.map (fun e => e.page)) = some [some 1, some 3] := by
  refine ⟨by decide, by decide, by decide⟩

/-- Claim C8: on a strictly ascending occurrence list, the OPT next-use
lookup returns the smallest element strictly greater than the current index,
the binary search returning the position of the first such element; when no
element exceeds the index the binary search returns `-1` and the lookup
fails fatally (`none`) rather than returning a value. -/
theorem claim_C8 (ti : Nat → List Nat) (e : PageTableEntry) (pn index : Nat)
    (hp : e.page = some pn) (hsort : List.Sorted (· < ·) (ti pn)) :
    ((∃ x ∈ ti pn, index < x) →
      ∃ k < (ti pn).length,
        findFirstElementGreaterThan (ti pn) index = (k : Int) ∧
        entryNextUsedAt ti e index = some ((ti pn).getD k 0) ∧
        (ti pn).getD k 0 ∈ ti pn ∧ index < (ti pn).getD k 0 ∧
        (∀ x ∈ ti pn, index < x → (ti pn).getD k 0 ≤ x) ∧
        (∀ j < k, (ti pn).getD j 0 ≤ index)) ∧
    ((∀ x ∈ ti pn, x ≤ index) →
      findFirstElementGreaterThan (ti pn) index = -1 ∧
      entryNextUsedAt ti e index = none) := by
  constructor
  · intro hex
    rcases findFirstElementGreaterThan_spec (ti pn) index hsort.le_of_lt with
      ⟨h1, hall⟩ | ⟨k, hk, heq, hgt, hbef⟩
    · exfalso
      obtain ⟨x, hxmem, hxgt⟩ := hex
      obtain ⟨nx, hnx, rfl⟩ := List.mem_iff_getElem.mp hxmem
      have := hall nx hnx
      rw [List.getD_eq_getElem _ _ hnx] at this
      omega
    · refine ⟨k, hk, heq, ?_, getD_mem_of_lt _ k _ hk, hgt, ?_, hbef⟩
      · rw [entryNextUsedAt, hp]
        simp only [heq]
        rw [if_neg (by omega)]
        simp
      · intro x hx hxgt
        obtain ⟨nx, hnx, rfl⟩ := List.mem_iff_getElem.mp hx
        rcases Nat.lt_or_ge nx k with hc | hc
        · exfalso
          have := hbef nx hc
          rw [List.getD_eq_getElem _ _ hnx] at this
          omega
        · have := sorted_getD_le hsort.le_of_lt hc hnx
          rwa [List.getD_eq_getElem _ _ hnx] at this
  · intro hall
    rcases findFirstElementGreaterThan_spec (ti pn) index hsort.le_of_lt with
      ⟨h1, _⟩ | ⟨k, hk, heq, hgt, hbef⟩
    · refine ⟨h1, ?_⟩
      rw [entryNextUsedAt, hp]
      simp only [h1]
      simp
    · exfalso
      have := hall ((ti pn).getD k 0) (getD_mem_of_lt (ti pn) k 0 hk)
      omega

/-- Concrete instance of C8: page 5's ascending occurrence list `[0, 2, 9]`,
queried after index 3 (next use exists) and after index 9 (none remains). -/
theorem claim_C8_witness :
    (entryNextUsedAt tiC8 eC8 3).isSome ∧
    (findFirstElementGreaterThan (tiC8 5) 9 = -1 ∧
      entryNextUsedAt tiC8 eC8 9 = none) := by
  constructor
  · obtain ⟨k, hk, hfe, hnext, hrest⟩ :=
      (claim_C8 tiC8 eC8 5 3 rfl (by decide)).1 ⟨9, by decide, by decide⟩
    rw [hnext]
    rfl
  · exact (claim_C8 tiC8 eC8 5 9 rfl (by decide)).2 (by decide)

/-- Claim C9: whenever a miss triggers an eviction — the table is full and
the policy's `evict` succeeds — at least one free frame exists in the
resulting table, `load` finds it (its fatal no-free-frame branch cannot
fire), and consequently `evictAndLoad` succeeds. -/
theorem claim_C9 (p : EvictionType) (ti : Nat → List Nat) (st : SimState)
    (index pn : Nat) (hful : tableIsFull st.table = true)
    (hev : (evict p ti st index).isSome) :
    (∃ st', evict p ti st index = some st' ∧
      (∃ j < st'.table.length, (st'.table.getD j PageTableEntry.init).page = none) ∧
      (PageTable.load st' pn).isSome) ∧
    (evictAndLoad p ti st pn index).isSome := by
  obtain ⟨st', hst'⟩ := Option.isSome_iff_exists.mp hev
  obtain ⟨hfree, hload⟩ := load_after_evict p ti st index st' pn hst'
  refine ⟨⟨st', hst', hfree, hload⟩, ?_⟩
  simp only [evictAndLoad, hful, if_true, hst']
  exact hload

/-- Concrete instance of C9: a full single-frame table under LRU. -/
theorem claim_C9_witness :
    tableIsFull stC9.table = true ∧
    (evictAndLoad .lru (fun _ => []) stC9 7 0).isSome :=
  ⟨by decide, (claim_C9 .lru (fun _ => []) stC9 0 7 (by decide) (by decide)).2⟩

/-- Claim C10: for every frame count n ≥ 1 and every table state, the
SecondChance eviction scan terminates within fuel n + 1 — i.e. in at most
n + 1 cursor advances, because each skipped frame has its flag cleared, so
after one full lap every flag is false — and it clears exactly one frame,
leaving every other frame's residency untouched. -/
theorem claim_C10 (st : SimState) (rr : Nat) (hn : 1 ≤ st.table.length) :
    (scEvictAux (st.table.length + 1) st rr).isSome ∧
    ∃ st', scEvict st = some st' ∧
      ∃ v < st.table.length,
        (st'.table.getD v PageTableEntry.init).page = none ∧
        ∀ j < st.table.length, j ≠ v →
          (st'.table.getD j PageTableEntry.init).page =
            (st.table.getD j PageTableEntry.init).page := by
  have hcount := List.countP_le_length (fun e : PageTableEntry => e.second_chance)
    (l := st.table)
  constructor
  · exact scEvictAux_isSome_of_fuel _ st rr hn (by omega)
  · have hsome := scEvictAux_isSome_of_fuel (st.table.length + 1) st
      st.round_robin_index hn (by omega)
    obtain ⟨pr, hpr⟩ := Option.isSome_iff_exists.mp hsome
    obtain ⟨st2, rr2⟩ := pr
    obtain ⟨c1, c2, c3, c4, c5, v, hvlt, hvpage, hother⟩ :=
      scEvictAux_shape _ _ _ _ _ hpr
    refine ⟨{ st2 with round_robin_index := rr2 }, ?_, v, hvlt, hvpage, hother⟩
    simp only [scEvict, hpr]

/-- Concrete instance of C10: a full two-frame table with both flags set:
the scan terminates within 3 advances. -/
theorem claim_C10_witness :
    (scEvictAux (stC10.table.length + 1) stC10 0).isSome ∧
    (scEvict stC10).isSome := by
  refine ⟨(claim_C10 stC10 0 (by decide)).1, ?_⟩
  obtain ⟨st', heq, hrest⟩ := (claim_C10 stC10 0 (by decide)).2
  rw [heq]
  rfl
